import Mathlib

/-!
Shallow embedding of the OCR worker's post-processing core
(`danube_postprocess.py`): the output-normalization pipeline
(`_clean_output`, `_add_table_spacing`, `_add_option_spacing`), quantized
model selection (`_choose_gguf`), the per-call token bound (`_max_tokens`),
the download handler (`_download_file`), and the request/response protocol
loop (`main`).

Strings are embedded as `List Char`.  Line splitting is modeled over the
newline character, which is the delimiter the protocol and the normalizer
operate on.  Stateful/IO parts (the generation call, JSON parsing of a
request line, the HTTP response stream) are embedded as explicit oracles
returning `Except`.
-/

abbrev Str := List Char

/-- Python whitespace characters used by `str.strip` / `str.lstrip` /
`str.rstrip` (ASCII range). -/
def isWS (c : Char) : Bool :=
  c = ' ' || c = '\t' || c = '\n' || c = '\r' || c = '\x0b' || c = '\x0c'

def pyLstrip (s : Str) : Str := s.dropWhile isWS

def pyRstrip (s : Str) : Str := (s.reverse.dropWhile isWS).reverse

def pyStrip (s : Str) : Str := pyLstrip (pyRstrip s)

/-- Auxiliary for splitting on newline characters; `cur` is the reversed
current piece. -/
def splitNlAux : Str → Str → List Str
  | [], cur => [cur.reverse]
  | c :: cs, cur =>
    if c = '\n' then cur.reverse :: splitNlAux cs [] else splitNlAux cs (c :: cur)

/-- Split on every newline: `k` newlines yield `k+1` pieces. -/
def splitOnNl (s : Str) : List Str := splitNlAux s []

/-- Python's line-boundary characters: `str.splitlines` splits on `\n`,
`\r`, `\r\n`, `\v`, `\f`, `\x1c`, `\x1d`, `\x1e`, `\x85`, `\u2028` and
`\u2029`. -/
def isLineBreak (c : Char) : Bool :=
  c = '\n' || c = '\r' || c = '\x0b' || c = '\x0c' || c = '\x1c' ||
    c = '\x1d' || c = '\x1e' || c = '\x85' || c = '\u2028' || c = '\u2029'

/-- The traversal of `str.splitlines` (keepends false): split at every
line-boundary character, with `\r\n` consumed as a single boundary
(`afterCR` records that the previous character was `\r`, so an immediately
following `\n` belongs to the same boundary) and no final empty piece
after a trailing boundary. -/
def splitLinesF : Str → Str → Bool → List Str
  | [], cur, _ => if cur.isEmpty then [] else [cur.reverse]
  | c :: cs, cur, afterCR =>
    if afterCR && (c = '\n') then splitLinesF cs cur false
    else if isLineBreak c then cur.reverse :: splitLinesF cs [] (c = '\r')
    else splitLinesF cs (c :: cur) false

/-- Python `str.splitlines()`. -/
def splitLines (s : Str) : List Str := splitLinesF s [] false

/-- The newline-only splitter: like `splitOnNl`, but a trailing newline
does not produce a final empty piece.  On text whose only line-boundary
characters are `\n` — as every `"\n".join` of boundary-free lines is —
`splitLines` reduces to it. -/
def splitLinesNl (s : Str) : List Str :=
  let ps := splitOnNl s
  if ps.getLast? = some [] then ps.dropLast else ps

/-- Every line-boundary character of `s` is a plain `\n`. -/
def nlOnly : Str → Bool
  | [] => true
  | c :: cs => (!(isLineBreak c) || c = '\n') && nlOnly cs

/-- Python `"\n".join`. -/
def joinNl : List Str → Str
  | [] => []
  | [l] => l
  | l :: l' :: ls => l ++ '\n' :: joinNl (l' :: ls)

/-- Python substring test `pat in s`. -/
def occurs (pat : Str) : Str → Bool
  | [] => pat.isEmpty
  | c :: cs => pat.isPrefixOf (c :: cs) || occurs pat cs

/-- Index of the last occurrence of `pat` (Python `str.rfind`), `none` when
absent. -/
def rfindIdx (pat : Str) : Str → Option Nat
  | [] => if pat.isPrefixOf ([] : Str) then some 0 else none
  | c :: cs =>
    match rfindIdx pat cs with
    | some i => some (i + 1)
    | none => if pat.isPrefixOf (c :: cs) then some 0 else none

/-- Auxiliary for `findIdxFrom`: index of the first occurrence of `pat`,
offset by `i`. -/
def findIdxAux (pat : Str) : Str → Nat → Option Nat
  | [], i => if pat.isPrefixOf ([] : Str) then some i else none
  | c :: cs, i => if pat.isPrefixOf (c :: cs) then some i else findIdxAux pat cs (i + 1)

/-- Python `str.find(pat, start)`: first occurrence at an index `≥ start`. -/
def findIdxFrom (pat s : Str) (start : Nat) : Option Nat :=
  findIdxAux pat (s.drop start) start

/-- Python `s.replace(pat, "")`: remove all occurrences, scanning left to
right without overlap.  `fuel` only bounds the loop (every call consumes at
least one character, so `s.length` fuel suffices); it keeps the recursion
structural. -/
def removeAllF (pat : Str) : Nat → Str → Str
  | 0, s => s
  | _ + 1, [] => []
  | fuel + 1, c :: cs =>
    if pat ≠ [] ∧ pat.isPrefixOf (c :: cs) then removeAllF pat fuel ((c :: cs).drop pat.length)
    else c :: removeAllF pat fuel cs

def removeAll (pat : Str) (s : Str) : Str := removeAllF pat s.length s

/-- Python `s.rsplit(pat, 1)[1]` under a guard that `pat` occurs: the part
after the last occurrence. -/
def rsplitTail (s pat : Str) : Str :=
  match rfindIdx pat s with
  | some i => s.drop (i + pat.length)
  | none => s

def textMarker : Str := "<<<TEXT>>>".toList
def endMarker : Str := "<<<END>>>".toList
def outMarker : Str := "<<<OUT>>>".toList
def endoutMarker : Str := "<<<ENDOUT>>>".toList
def fenceStr : Str := "```".toList

/-- The suffix after the first newline, or `none` when no newline occurs. -/
def afterFirstNl : Str → Option Str
  | [] => none
  | c :: cs => if c = '\n' then some cs else afterFirstNl cs

/-- `_strip_code_fences`: drop one leading fenced-code opening line (the
substitution of `^`-anchored triple-backtick up to a newline) and one
trailing closing fence (`\n`-preceded triple backtick at the end). -/
def stripCodeFences (text : Str) : Str :=
  let c1 :=
    if fenceStr.isPrefixOf text then
      match afterFirstNl text with
      | some r => r
      | none => text
    else text
  if fenceStr.isSuffixOf c1 then
    if ('\n' :: fenceStr).isSuffixOf c1 then c1.take (c1.length - 4) else c1
  else c1

/-- Consume a literal case-insensitively; returns the rest on success. -/
def eatLitCI : Str → Str → Option Str
  | [], s => some s
  | _ :: _, [] => none
  | c :: cs, x :: xs => if x.toLower = c.toLower then eatLitCI cs xs else none

/-- Consume at least one whitespace character (regex `\s+`). -/
def eatWS1 : Str → Option Str
  | [] => none
  | c :: cs => if isWS c then some (cs.dropWhile isWS) else none

/-- Matcher for `corrected\s+text\s+is\s+as\s+follows:?\s*$`,
case-insensitive. -/
def matchPreTail (s : Str) : Bool :=
  match eatLitCI "corrected".toList s with
  | none => false
  | some r1 =>
    match eatWS1 r1 with
    | none => false
    | some r2 =>
      match eatLitCI "text".toList r2 with
      | none => false
      | some r3 =>
        match eatWS1 r3 with
        | none => false
        | some r4 =>
          match eatLitCI "is".toList r4 with
          | none => false
          | some r5 =>
            match eatWS1 r5 with
            | none => false
            | some r6 =>
              match eatLitCI "as".toList r6 with
              | none => false
              | some r7 =>
                match eatWS1 r7 with
                | none => false
                | some r8 =>
                  match eatLitCI "follows".toList r8 with
                  | none => false
                  | some r9 =>
                    let r10 := match r9 with
                      | ':' :: t => t
                      | _ => r9
                    (r10.dropWhile isWS).isEmpty

/-- Matcher for the preamble pattern
`(?i)^(the\s+)?corrected\s+text\s+is\s+as\s+follows:?\s*$`. -/
def matchPre (s : Str) : Bool :=
  matchPreTail s ||
    (match eatLitCI "the".toList s with
     | some r =>
       match eatWS1 r with
       | some r2 => matchPreTail r2
       | none => false
     | none => false)

/-- The `while` loop of `_strip_prefix_lines`: pop leading lines whose
stripped form matches the preamble pattern. -/
def dropPreLines : List Str → List Str
  | [] => []
  | l :: ls => if matchPre (pyStrip l) then dropPreLines ls else l :: ls

/-- `_strip_prefix_lines`. -/
def stripPrefixLines (text : Str) : Str :=
  pyStrip (joinNl (dropPreLines (splitLines text)))

/-- `_extract_between`: the stripped slice between the last occurrence of
`start` and the next occurrence of `stop` after it. -/
def extractBetween (text start stop : Str) : Str :=
  match rfindIdx start text with
  | none => []
  | some i =>
    let j := i + start.length
    match findIdxFrom stop text j with
    | none => []
    | some k => pyStrip ((text.take k).drop j)

/-- `_clean_output`: the extraction stages of the normalizer (fence strip,
preamble strip, echo extraction, answer extraction, marker scrub, second
pass). -/
def cleanOutput (output : Str) : Str :=
  let cleaned := pyStrip output
  if cleaned.isEmpty then []
  else
    let cleaned := pyStrip (stripCodeFences cleaned)
    let cleaned := stripPrefixLines cleaned
    let cleaned :=
      if occurs textMarker cleaned && occurs endMarker cleaned then
        let extracted := extractBetween cleaned textMarker endMarker
        if extracted.isEmpty then cleaned else extracted
      else cleaned
    let cleaned :=
      if occurs outMarker cleaned then
        let tail := pyStrip (rsplitTail cleaned outMarker)
        if tail.isEmpty then cleaned else tail
      else cleaned
    let cleaned := removeAll textMarker cleaned
    let cleaned := removeAll endMarker cleaned
    let cleaned := removeAll outMarker cleaned
    let cleaned := removeAll endoutMarker cleaned
    let cleaned := stripPrefixLines cleaned
    pyStrip (stripCodeFences cleaned)

/-- A line is a table line iff after left-trimming it begins with a pipe and
contains at least two pipes (`is_table_line` in `_add_table_spacing`). -/
def isTableLine (line : Str) : Bool :=
  let stripped := pyLstrip line
  (['|'] : Str).isPrefixOf stripped && decide (2 ≤ stripped.count '|')

/-- Python truthiness of `result and result[-1].strip()`: the accumulated
output is nonempty and its last line is non-blank. -/
def lastNonblank (result : List Str) : Bool :=
  match result.getLast? with
  | some l => !(pyStrip l).isEmpty
  | none => false

/-- The `while` loop of `_add_table_spacing`, with the growing `result`
accumulator.  `fuel` only bounds the loop (every iteration consumes at
least one line, so `lines.length` fuel suffices); it keeps the recursion
structural. -/
def tableGoF : Nat → List Str → List Str → List Str
  | 0, _, result => result
  | _ + 1, [], result => result
  | fuel + 1, l :: ls, result =>
    if isTableLine l then
      let run := (l :: ls).takeWhile isTableLine
      let rest := (l :: ls).dropWhile isTableLine
      let res1 := if lastNonblank result then result ++ [([] : Str)] else result
      let res2 := res1 ++ run
      let res3 :=
        match rest.head? with
        | some r => if (pyStrip r).isEmpty then res2 else res2 ++ [([] : Str)]
        | none => res2
      tableGoF fuel rest res3
    else tableGoF fuel ls (result ++ [l])

def tableGo (lines result : List Str) : List Str := tableGoF lines.length lines result

/-- `_add_table_spacing`. -/
def addTableSpacing (text : Str) : Str :=
  let lines := splitLines text
  if lines.isEmpty then text
  else pyRstrip (joinNl (tableGo lines []))

def headIsWS : Str → Bool
  | [] => false
  | c :: _ => isWS c

def isDotParen (c : Char) : Bool := c = '.' || c = ')'

/-- Matcher for the option pattern `^\s*([A-H]|\d{1,2})[.)]\s+`. -/
def isOptionLine (line : Str) : Bool :=
  match line.dropWhile isWS with
  | [] => false
  | c :: rest =>
    if 'A' ≤ c && c ≤ 'H' then
      match rest with
      | b :: r2 => isDotParen b && headIsWS r2
      | [] => false
    else if c.isDigit then
      (match rest with
       | d :: b :: r2 => d.isDigit && isDotParen b && headIsWS r2
       | _ => false)
      ||
      (match rest with
       | b :: r2 => isDotParen b && headIsWS r2
       | [] => false)
    else false

/-- The `for` loop of `_add_option_spacing`, with the growing `result`
accumulator and the `in_option_block` flag. -/
def optionGo (lines result : List Str) (inBlock : Bool) : List Str :=
  match lines with
  | [] => result
  | line :: rest =>
    if isOptionLine line then
      let res1 := if !inBlock && lastNonblank result then result ++ [([] : Str)] else result
      optionGo rest (res1 ++ [line]) true
    else
      optionGo rest (result ++ [line])
        (if (pyStrip line).isEmpty then inBlock else false)

/-- `_add_option_spacing`. -/
def addOptionSpacing (text : Str) : Str :=
  let lines := splitLines text
  if lines.isEmpty then text
  else pyRstrip (joinNl (optionGo lines [] false))

/-- The normalization applied by `_process_one` to the raw generated text:
extraction stages, then (for a nonempty result) table and option spacing. -/
def processOneText (output : Str) : Str :=
  let cleaned := cleanOutput output
  if cleaned.isEmpty then [] else addOptionSpacing (addTableSpacing cleaned)

/-- `_max_tokens`: estimate from the input length, clamped per the code. -/
def maxTokens (text : Str) (nCtx : Int) : Int :=
  let estimate : Int := max 128 ((text.length : Int) / 2)
  max 128 (min 2048 (min estimate (max 128 (nCtx - 128))))

def dotGguf : Str := ".gguf".toList

/-- The ordered quantization-tag list `preferred` in `_choose_gguf`. -/
def preferredTags : List Str := ["Q4_K_M".toList, "Q4_K".toList, "Q4".toList, "q4".toList]

/-- The nested `for tag in preferred: for name in ggufs:` loops of
`_choose_gguf`. -/
def chooseLoop : List Str → List Str → Option Str
  | [], _ => none
  | tag :: tags, ggufs =>
    match ggufs.find? (fun name => occurs tag name) with
    | some name => some name
    | none => chooseLoop tags ggufs

/-- `_choose_gguf`: `[]` plays the role of the empty string (no selection). -/
def chooseGguf (files : List Str) (requireQ4 : Bool) : Str :=
  let ggufs := files.filter (fun f => dotGguf.isSuffixOf f)
  if ggufs.isEmpty then []
  else
    match chooseLoop preferredTags ggufs with
    | some name => name
    | none => if requireQ4 then [] else ggufs.headD []

/-- The fixed instruction block of `_make_prompt`, up to the interpolated
fragment. -/
def promptHeadLit : Str :=
  ("You are a text post-processor.\nRules:\n- Only adjust whitespace, line breaks, and indentation.\n- Fix missing spaces between words (example: \"andthe\" -> \"and the\").\n- Do not change words, punctuation, or numbers.\n- Do not add or remove content.\n- Preserve table pipes and dashes (\"|\" and \"-\") if present.\n- If table rows are present, keep the number of rows and column separators unchanged.\n- Add a blank line before and after any Markdown table block.\n- Add a blank line before multiple-choice answer blocks (A., B., C., etc.).\n- Do not repeat the input or any markers.\nReturn only the corrected text.\nEnd your response with <<<ENDOUT>>> on its own line.\n\nText:\n<<<TEXT>>>\n").toList

/-- The tail of the prompt after the interpolated fragment. -/
def promptTailLit : Str := "\n<<<END>>>\n\nCorrected:\n<<<OUT>>>\n".toList

/-- `_make_prompt`. -/
def makePrompt (text : Str) : Str := promptHeadLit ++ text ++ promptTailLit

/-- A request line's decoded payload: `{"text": ...}`. -/
structure Request where
  text : Str
deriving DecidableEq

/-- A response line's payload: `{"text": ...}`. -/
structure Response where
  text : Str
deriving DecidableEq

/-- `_process_one` around an opaque generation call `gen` (prompt and
max-token bound in, generated text or an exception out). -/
def processOneE (gen : Str → Int → Except Str Str) (nCtx : Int) (text : Str) :
    Except Str Str :=
  match gen (makePrompt text) (maxTokens text nCtx) with
  | .ok output => .ok (processOneText output)
  | .error e => .error e

/-- The body of the request loop in `main` for one (already stripped,
non-blank) line: JSON decoding is the `parse` oracle; any failure in
decoding, prompt building, generation or normalization yields the empty
response. -/
def handleLine (parse : Str → Except Str Request) (gen : Str → Int → Except Str Str)
    (nCtx : Int) (line : Str) : Response :=
  match parse line with
  | .error _ => ⟨[]⟩
  | .ok payload =>
    if payload.text.isEmpty then ⟨[]⟩
    else
      match processOneE gen nCtx payload.text with
      | .ok out => ⟨out⟩
      | .error _ => ⟨[]⟩

/-- The `for line in sys.stdin` loop of `main`: strip each line, skip blank
lines, emit one response per remaining line. -/
def mainLoop (parse : Str → Except Str Request) (gen : Str → Int → Except Str Str)
    (nCtx : Int) (lines : List Str) : List Response :=
  lines.filterMap (fun raw =>
    let line := pyStrip raw
    if line.isEmpty then none else some (handleLine parse gen nCtx line))

/-- The chunked read/write loop of `_download_file` over the response
stream: events are successful chunk reads (an empty chunk is end of stream)
or an exception; returns the bytes written so far and the exception, if
any. -/
def streamTo (events : List (Except Str Str)) (dest : Str) : Str × Option Str :=
  match events with
  | [] => (dest, none)
  | .ok c :: rest => if c.isEmpty then (dest, none) else streamTo rest (dest ++ c)
  | .error e :: _ => (dest, some e)

def wrapDownloadErr (e : Str) : Str := "Failed to download model: ".toList ++ e

/-- `_download_file`: on an exception, best-effort delete the partially
written destination (`removeOk` tells whether the deletion itself succeeds;
a deletion failure is swallowed) and re-raise the wrapped error.  Returns
the final destination file content (`none` = absent) and the outcome. -/
def downloadFile (events : List (Except Str Str)) (removeOk : Bool) :
    Option Str × Except Str Unit :=
  match streamTo events [] with
  | (written, none) => (some written, .ok ())
  | (written, some e) =>
    (if removeOk then none else some written, .error (wrapDownloadErr e))

/-! ### Reference functions written from the specification's words -/

/-- Modelled from the spec: `maxTokens = clamp(max(128, len(inputText)/2),
128, min(2048, contextLength-128))`. -/
def specMaxTokens (text : Str) (nCtx : Int) : Int :=
  max 128 (min (max 128 ((text.length : Int) / 2)) (min 2048 (nCtx - 128)))

/-- Modelled from the spec: among catalog files with the archive extension,
find the first tag (in the fixed order) contained in some file, and return
the first such file; with no tag match, reject (empty) when non-quantized
fallback is disallowed, else take the first archive file. -/
def specChooseGguf (files : List Str) (requireQ4 : Bool) : Str :=
  let archives := files.filter (fun f => dotGguf.isSuffixOf f)
  match preferredTags.find? (fun tag => archives.any (fun n => occurs tag n)) with
  | some tag => ((archives.find? (fun n => occurs tag n)).getD [])
  | none => if requireQ4 then [] else archives.headD []

/-- Modelled from the spec's description of the table-spacing pass: walk the
maximal runs of table lines; insert one blank line before a run when the
preceding output line exists and is non-blank (tracked by `prevNB`), one
blank line after a run when the immediately following source line exists
and is non-blank; other lines pass through unchanged. -/
def specTableSpacingF : Nat → Bool → List Str → List Str
  | 0, _, _ => []
  | _ + 1, _, [] => []
  | fuel + 1, prevNB, l :: ls =>
    if isTableLine l then
      let run := (l :: ls).takeWhile isTableLine
      let rest := (l :: ls).dropWhile isTableLine
      let before := if prevNB then [([] : Str)] else []
      let after :=
        match rest.head? with
        | some r => if (pyStrip r).isEmpty then ([] : List Str) else [[]]
        | none => []
      let nextNB :=
        match rest.head? with
        | some r => (pyStrip r).isEmpty
        | none => true
      before ++ run ++ after ++ specTableSpacingF fuel nextNB rest
    else l :: specTableSpacingF fuel (!(pyStrip l).isEmpty) ls

def specTableSpacing (prevNB : Bool) (lines : List Str) : List Str :=
  specTableSpacingF lines.length prevNB lines

/-- Modelled from the spec's description of the option-spacing pass: on an
option-pattern line, insert one blank line when not in an option block and
the previously emitted line exists and is non-blank (`prevNB`), then enter
the block; a non-blank non-option line leaves the block; blank lines pass
through without changing the block flag. -/
def specOptionSpacing (inBlock prevNB : Bool) : List Str → List Str
  | [] => []
  | l :: ls =>
    if isOptionLine l then
      (if !inBlock && prevNB then [([] : Str), l] else [l]) ++
        specOptionSpacing true true ls
    else
      l :: specOptionSpacing (if (pyStrip l).isEmpty then inBlock else false)
        (!(pyStrip l).isEmpty) ls

/-- The state (`in_option_block`, previous-line-non-blank) after the
option-spacing pass consumes `lines`. -/
def optState (inBlock prevNB : Bool) : List Str → Bool × Bool
  | [] => (inBlock, prevNB)
  | l :: ls =>
    if isOptionLine l then optState true true ls
    else optState (if (pyStrip l).isEmpty then inBlock else false)
      (!(pyStrip l).isEmpty) ls

/-- A whitespace-only line (Python-falsy `line.strip()`). -/
def blankLine (l : Str) : Bool := (pyStrip l).isEmpty

/-- Drop trailing whitespace-only lines. -/
def dropTrailBlank (L : List Str) : List Str := (L.reverse.dropWhile blankLine).reverse

/-- The effect of right-stripping the newline-joined lines, at the level of
line lists: drop trailing blank lines and right-strip the last remaining
line. -/
def trimT (L : List Str) : List Str :=
  match L.reverse.dropWhile blankLine with
  | [] => []
  | x :: rest => (pyRstrip x :: rest).reverse

/-- Adjacency relation characterizing line lists on which the table-spacing
pass inserts nothing: wherever a maximal table run starts or ends inside
the list, the adjacent non-table line is blank. -/
def relLine (a b : Str) : Prop :=
  (isTableLine a = false ∧ isTableLine b = true → blankLine a = true) ∧
  (isTableLine a = true ∧ isTableLine b = false → blankLine b = true)

/-- No line of the list contains a line-boundary character. -/
def nlFreeL (L : List Str) : Prop := ∀ l ∈ L, ∀ c ∈ l, isLineBreak c = false

/-! ## Basic lemmas about the string primitives -/

theorem dropWhile_idem (p : α → Bool) (l : List α) :
    (l.dropWhile p).dropWhile p = l.dropWhile p := by
  induction l with
  | nil => rfl
  | cons a l ih =>
    by_cases h : p a
    · rw [List.dropWhile_cons_of_pos h, ih]
    · rw [List.dropWhile_cons_of_neg (by simpa using h),
        List.dropWhile_cons_of_neg (by simpa using h)]

theorem dropWhile_length_le (p : α → Bool) (l : List α) :
    (l.dropWhile p).length ≤ l.length := by
  induction l with
  | nil => simp
  | cons a l ih =>
    by_cases h : p a
    · rw [List.dropWhile_cons_of_pos h]
      exact Nat.le_trans ih (Nat.le_succ _)
    · rw [List.dropWhile_cons_of_neg (by simpa using h)]

theorem pyLstrip_idem (s : Str) : pyLstrip (pyLstrip s) = pyLstrip s :=
  dropWhile_idem isWS s

theorem pyRstrip_idem (s : Str) : pyRstrip (pyRstrip s) = pyRstrip s := by
  unfold pyRstrip
  rw [List.reverse_reverse, dropWhile_idem]

theorem pyRstrip_cons (c : Char) (t : Str) :
    pyRstrip (c :: t) =
      if pyRstrip t = [] then (if isWS c then [] else [c]) else c :: pyRstrip t := by
  unfold pyRstrip
  rw [show (c :: t).reverse = t.reverse ++ [c] from List.reverse_cons c t,
    List.dropWhile_append]
  by_cases h : t.reverse.dropWhile isWS = []
  · simp only [h, List.isEmpty_nil, if_true, List.reverse_nil, List.reverse_eq_nil_iff]
    by_cases hc : isWS c <;> simp [List.dropWhile, hc]
  · have : (t.reverse.dropWhile isWS).isEmpty = false := by
      simpa [List.isEmpty_iff] using h
    simp only [this, Bool.false_eq_true, if_false, List.reverse_append,
      List.reverse_eq_nil_iff]
    simp [h]

theorem rstrip_lstrip_comm (s : Str) : pyRstrip (pyLstrip s) = pyLstrip (pyRstrip s) := by
  induction s with
  | nil => rfl
  | cons c cs ih =>
    by_cases hc : isWS c
    · rw [show pyLstrip (c :: cs) = pyLstrip cs from List.dropWhile_cons_of_pos hc, ih,
        pyRstrip_cons]
      by_cases h : pyRstrip cs = []
      · simp [h, hc, pyLstrip]
      · simp only [h, if_false]
        exact (List.dropWhile_cons_of_pos hc).symm
    · rw [show pyLstrip (c :: cs) = c :: cs from List.dropWhile_cons_of_neg (by simpa using hc),
        pyRstrip_cons]
      by_cases h : pyRstrip cs = []
      · simp only [h, if_true, hc, Bool.false_eq_true, if_false]
        unfold pyLstrip
        rw [List.dropWhile_cons_of_neg (by simpa using hc)]
      · simp only [h, if_false]
        unfold pyLstrip
        rw [List.dropWhile_cons_of_neg (by simpa using hc)]

theorem pyStrip_idem (s : Str) : pyStrip (pyStrip s) = pyStrip s := by
  unfold pyStrip
  rw [rstrip_lstrip_comm (pyRstrip s), pyRstrip_idem, pyLstrip_idem]

theorem pyStrip_rstrip (s : Str) : pyStrip (pyRstrip s) = pyStrip s := by
  unfold pyStrip
  rw [pyRstrip_idem]

theorem pyStrip_lstrip (s : Str) : pyStrip (pyLstrip s) = pyStrip s := by
  unfold pyStrip
  rw [rstrip_lstrip_comm s, pyLstrip_idem]

theorem rstrip_strip_eq_strip (s : Str) : pyRstrip (pyStrip s) = pyStrip s := by
  unfold pyStrip
  rw [rstrip_lstrip_comm (pyRstrip s), pyRstrip_idem]

/-! ## Claim C8: the per-call output token bound -/

/-- Claim C8: for every input text and context length, `_max_tokens`
computes exactly `clamp(max(128, len(inputText)/2), 128,
min(2048, contextLength-128))`. -/
theorem claimC8_max_tokens_clamp (text : Str) (nCtx : Int) :
    maxTokens text nCtx = specMaxTokens text nCtx := by
  unfold maxTokens specMaxTokens
  generalize (text.length : Int) / 2 = d
  simp only [max_def, min_def]
  split_ifs <;> omega

/-! ## Claim C3: quantized-model selection -/

theorem chooseLoop_eq_find (tags gg : List Str) :
    chooseLoop tags gg =
      (tags.find? (fun t => gg.any (fun n => occurs t n))).bind
        (fun t => gg.find? (fun n => occurs t n)) := by
  induction tags with
  | nil => rfl
  | cons t ts ih =>
    by_cases h : gg.any (fun n => occurs t n)
    · obtain ⟨x, hx, hpx⟩ := List.any_eq_true.mp h
      have hs : (gg.find? (fun n => occurs t n)).isSome :=
        List.find?_isSome.mpr ⟨x, hx, hpx⟩
      obtain ⟨n, hn⟩ := Option.isSome_iff_exists.mp hs
      rw [List.find?_cons_of_pos (p := fun t => gg.any (fun n => occurs t n)) ts h]
      simp only [Option.some_bind]
      unfold chooseLoop
      rw [hn]
    · have hnone : gg.find? (fun n => occurs t n) = none := by
        rw [List.find?_eq_none]
        intro x hx
        intro hc
        exact h (List.any_eq_true.mpr ⟨x, hx, hc⟩)
      rw [List.find?_cons_of_neg (p := fun t => gg.any (fun n => occurs t n)) ts
        (by simpa using h)]
      unfold chooseLoop
      rw [hnone, ih]

/-- Claim C3: selection returns the first archive-extension catalog file
containing the first matching quantization tag; with no tag match it is
empty under the default (no non-quantized fallback) and the first archive
file otherwise; on the catalog `["m-f16.gguf", "m-Q4_K_M.gguf",
"m-Q5.gguf"]` it picks `"m-Q4_K_M.gguf"`. -/
theorem claimC3_choose_gguf :
    (∀ files requireQ4, chooseGguf files requireQ4 = specChooseGguf files requireQ4) ∧
    (∀ requireQ4,
      chooseGguf ["m-f16.gguf".toList, "m-Q4_K_M.gguf".toList, "m-Q5.gguf".toList] requireQ4 =
        "m-Q4_K_M.gguf".toList) := by
  constructor
  · intro files requireQ4
    unfold chooseGguf specChooseGguf
    simp only [chooseLoop_eq_find]
    cases hgg : files.filter (fun f => dotGguf.isSuffixOf f) with
    | nil =>
      cases hf : preferredTags.find? (fun t => ([] : List Str).any (fun n => occurs t n)) with
      | none => simp
      | some t => simp
    | cons g gs =>
      cases hf : preferredTags.find? (fun t => (g :: gs).any (fun n => occurs t n)) with
      | none => simp
      | some t =>
        have ht : (fun t => (g :: gs).any (fun n => occurs t n)) t = true :=
          List.find?_some (p := fun t => (g :: gs).any (fun n => occurs t n)) hf
        obtain ⟨x, hx, hpx⟩ := List.any_eq_true.mp ht
        have hs : ((g :: gs).find? (fun n => occurs t n)).isSome :=
          List.find?_isSome.mpr ⟨x, hx, hpx⟩
        obtain ⟨n, hn⟩ := Option.isSome_iff_exists.mp hs
        simp [hn]
  · intro requireQ4
    cases requireQ4 <;> decide

/-! ## Claim C9: download failure handling -/

theorem streamTo_map_ok (chunks : List Str) (h : ∀ c ∈ chunks, c ≠ [])
    (rest : List (Except Str Str)) (dest : Str) :
    streamTo (chunks.map Except.ok ++ rest) dest = streamTo rest (dest ++ chunks.flatten) := by
  induction chunks generalizing dest with
  | nil => simp
  | cons c cs ih =>
    have hc : c.isEmpty = false := by
      simpa [List.isEmpty_iff] using h c (by simp)
    have step : streamTo ((c :: cs).map Except.ok ++ rest) dest =
        streamTo (cs.map Except.ok ++ rest) (dest ++ c) := by
      simp [streamTo, hc]
    rw [step, ih (fun x hx => h x (by simp [hx]))]
    simp [List.append_assoc]

/-- Claim C9: a successful streamed download leaves the full content at the
destination; any exception during streaming re-raises the wrapped failure
and best-effort deletes the partial destination file (a failing deletion is
swallowed, leaving the partial content). -/
theorem claimC9_download_cleanup (chunks : List Str) (e : Str)
    (rest : List (Except Str Str)) (removeOk : Bool) (h : ∀ c ∈ chunks, c ≠ []) :
    downloadFile (chunks.map Except.ok) removeOk = (some chunks.flatten, Except.ok ()) ∧
    downloadFile (chunks.map Except.ok ++ Except.error e :: rest) true =
      (none, Except.error (wrapDownloadErr e)) ∧
    downloadFile (chunks.map Except.ok ++ Except.error e :: rest) false =
      (some chunks.flatten, Except.error (wrapDownloadErr e)) := by
  have hok : streamTo (chunks.map Except.ok) [] = (chunks.flatten, none) := by
    have := streamTo_map_ok chunks h [] []
    simpa [streamTo] using this
  have herr : streamTo (chunks.map Except.ok ++ Except.error e :: rest) [] =
      (chunks.flatten, some e) := by
    have := streamTo_map_ok chunks h (Except.error e :: rest) []
    simpa [streamTo] using this
  refine ⟨?_, ?_, ?_⟩ <;> simp [downloadFile, hok, herr]

/-- Claim C9 witness. -/
theorem claimC9_download_cleanup_witness :
    (∀ c ∈ ["ab".toList, "c".toList], c ≠ []) ∧
    (downloadFile (["ab".toList, "c".toList].map Except.ok) true =
        (some ["ab".toList, "c".toList].flatten, Except.ok ()) ∧
      downloadFile (["ab".toList, "c".toList].map Except.ok ++
          Except.error "boom".toList :: []) true =
        (none, Except.error (wrapDownloadErr "boom".toList)) ∧
      downloadFile (["ab".toList, "c".toList].map Except.ok ++
          Except.error "boom".toList :: []) false =
        (some ["ab".toList, "c".toList].flatten, Except.error (wrapDownloadErr "boom".toList))) :=
  ⟨by decide, claimC9_download_cleanup ["ab".toList, "c".toList] "boom".toList [] true (by decide)⟩

/-! ## Claims C6 and C7: the protocol loop -/

theorem mainLoop_eq_map_filter (parse : Str → Except Str Request)
    (gen : Str → Int → Except Str Str) (nCtx : Int) (lines : List Str) :
    mainLoop parse gen nCtx lines =
      ((lines.map pyStrip).filter (fun l => !l.isEmpty)).map (handleLine parse gen nCtx) := by
  induction lines with
  | nil => rfl
  | cons raw rest ih =>
    by_cases h : pyStrip raw = []
    · simpa [mainLoop, List.filterMap_cons, h] using ih
    · simpa [mainLoop, List.filterMap_cons, h] using ih

/-- Claim C6: the loop emits exactly one response per non-blank input line,
in order; a line whose processing fails (JSON decoding or the
generation/normalization stage) still yields the empty response rather
than ending the loop. -/
theorem claimC6_loop_one_response_per_line :
    ∀ (parse : Str → Except Str Request) (gen : Str → Int → Except Str Str)
      (nCtx : Int) (lines : List Str),
    mainLoop parse gen nCtx lines =
      ((lines.map pyStrip).filter (fun l => !l.isEmpty)).map (handleLine parse gen nCtx) ∧
    (mainLoop parse gen nCtx lines).length =
      ((lines.map pyStrip).filter (fun l => !l.isEmpty)).length ∧
    (∀ msg line, handleLine (fun _ => Except.error msg) gen nCtx line = ⟨[]⟩) ∧
    (∀ t line msg,
      handleLine (fun _ => Except.ok ⟨'a' :: t⟩) (fun _ _ => Except.error msg) nCtx line =
        ⟨[]⟩) := by
  intro parse gen nCtx lines
  refine ⟨mainLoop_eq_map_filter parse gen nCtx lines, ?_, ?_, ?_⟩
  · rw [mainLoop_eq_map_filter]
    simp
  · intro msg line
    rfl
  · intro t line msg
    rfl

/-- Claim C7: a request with an empty `text` field gets the empty response
without the generation operation being consulted (the result does not
depend on the generation oracle). -/
theorem claimC7_empty_text_no_generation (parse : Str → Except Str Request)
    (gen gen' : Str → Int → Except Str Str) (nCtx : Int) (line : Str) (req : Request)
    (hp : parse line = Except.ok req) (ht : req.text = []) :
    handleLine parse gen nCtx line = ⟨[]⟩ ∧
    handleLine parse gen nCtx line = handleLine parse gen' nCtx line := by
  constructor <;> simp [handleLine, hp, ht]

/-- Claim C7 witness. -/
theorem claimC7_empty_text_no_generation_witness :
    ((fun _ : Str => (Except.ok (Request.mk []) : Except Str Request)) "x".toList =
      Except.ok (Request.mk [])) ∧
    (Request.mk []).text = [] ∧
    handleLine (fun _ => Except.ok (Request.mk []))
        (fun _ _ => Except.ok "g".toList) 4096 "x".toList = ⟨[]⟩ ∧
    handleLine (fun _ => Except.ok (Request.mk []))
        (fun _ _ => Except.ok "g".toList) 4096 "x".toList =
      handleLine (fun _ => Except.ok (Request.mk []))
        (fun _ _ => Except.error "e".toList) 4096 "x".toList := by
  refine ⟨rfl, rfl, ?_, ?_⟩
  · exact (claimC7_empty_text_no_generation _ _ (fun _ _ => Except.error "e".toList)
      4096 "x".toList (Request.mk []) rfl rfl).1
  · exact (claimC7_empty_text_no_generation _ _ _
      4096 "x".toList (Request.mk []) rfl rfl).2

/-! ## Claim C10: no trailing whitespace in responses -/

theorem splitNlAux_ne_nil (s cur : Str) : splitNlAux s cur ≠ [] := by
  induction s generalizing cur with
  | nil => simp [splitNlAux]
  | cons c cs ih =>
    unfold splitNlAux
    by_cases h : c = '\n'
    · simp [h]
    · simpa [h] using ih (c :: cur)

theorem splitNlAux_eq_single_nil (s cur : Str) (h : splitNlAux s cur = [[]]) :
    cur = [] ∧ s = [] := by
  induction s generalizing cur with
  | nil =>
    refine ⟨?_, rfl⟩
    have : cur.reverse = [] := by simpa [splitNlAux] using h
    simpa using this
  | cons c cs ih =>
    unfold splitNlAux at h
    by_cases hc : c = '\n'
    · rw [if_pos hc] at h
      have hne := splitNlAux_ne_nil cs []
      have hlen := congrArg List.length h
      simp at hlen
      exact absurd hlen hne
    · rw [if_neg hc] at h
      obtain ⟨h1, -⟩ := ih (c :: cur) h
      exact absurd h1 (by simp)

theorem splitLinesF_nil (cur : Str) (b : Bool) :
    splitLinesF [] cur b = if cur.isEmpty then [] else [cur.reverse] := rfl

theorem splitLinesF_cons (c : Char) (cs cur : Str) (b : Bool) :
    splitLinesF (c :: cs) cur b =
      if b && (c = '\n') then splitLinesF cs cur false
      else if isLineBreak c then cur.reverse :: splitLinesF cs [] (c = '\r')
      else splitLinesF cs (c :: cur) false := rfl

theorem splitLinesF_nil_of_false : ∀ (s cur : Str),
    splitLinesF s cur false = [] → s = [] ∧ cur = [] := by
  intro s
  induction s with
  | nil =>
    intro cur h
    cases cur with
    | nil => exact ⟨rfl, rfl⟩
    | cons a t => simp [splitLinesF] at h
  | cons c cs ih =>
    intro cur h
    rw [splitLinesF_cons] at h
    simp only [Bool.false_and, Bool.false_eq_true, if_false] at h
    by_cases hbr : isLineBreak c = true
    · rw [if_pos hbr] at h
      simp at h
    · rw [if_neg hbr] at h
      obtain ⟨-, h2⟩ := ih (c :: cur) h
      exact absurd h2 (by simp)

theorem splitLines_nil_iff (s : Str) : splitLines s = [] ↔ s = [] := by
  constructor
  · intro h
    unfold splitLines at h
    exact (splitLinesF_nil_of_false s [] h).1
  · intro h
    subst h
    rfl

theorem addTableSpacing_rstrip_fix (t : Str) :
    pyRstrip (addTableSpacing t) = addTableSpacing t := by
  unfold addTableSpacing
  by_cases h : (splitLines t).isEmpty
  · have ht : t = [] := (splitLines_nil_iff t).mp (List.isEmpty_iff.mp h)
    subst ht
    rfl
  · simp only [h, Bool.false_eq_true, if_false]
    exact pyRstrip_idem _

theorem addOptionSpacing_rstrip_fix (t : Str) :
    pyRstrip (addOptionSpacing t) = addOptionSpacing t := by
  unfold addOptionSpacing
  by_cases h : (splitLines t).isEmpty
  · have ht : t = [] := (splitLines_nil_iff t).mp (List.isEmpty_iff.mp h)
    subst ht
    rfl
  · simp only [h, Bool.false_eq_true, if_false]
    exact pyRstrip_idem _

theorem rstrip_fix_last_not_ws (s : Str) (hfix : pyRstrip s = s) :
    ∀ c ∈ s.getLast?, isWS c = false := by
  intro c hc
  by_contra hws
  have hws' : isWS c = true := by simpa using hws
  have hrev : s.reverse.head? = some c := by
    rw [List.head?_reverse]
    exact Option.mem_def.mp hc
  obtain ⟨t, ht⟩ : ∃ t, s.reverse = c :: t := by
    cases hr : s.reverse with
    | nil => rw [hr] at hrev; simp at hrev
    | cons a u =>
      rw [hr] at hrev
      simp at hrev
      exact ⟨u, by rw [hrev]⟩
  have hdrop : pyRstrip s = (t.dropWhile isWS).reverse := by
    unfold pyRstrip
    rw [ht, List.dropWhile_cons_of_pos hws']
  rw [hdrop] at hfix
  have hlen := congrArg List.length hfix
  have hle := dropWhile_length_le isWS t
  have hslen : s.length = t.length + 1 := by
    have := congrArg List.length ht
    simpa using this
  simp at hlen
  omega

/-- Claim C10: the final response text never carries trailing whitespace:
both spacing passes right-strip their joined result, so the normalizer's
output is a fixed point of right-stripping and, when non-empty, ends in a
non-whitespace character. -/
theorem claimC10_no_trailing_whitespace :
    (∀ raw, pyRstrip (processOneText raw) = processOneText raw) ∧
    (∀ t, pyRstrip (addTableSpacing t) = addTableSpacing t) ∧
    (∀ t, pyRstrip (addOptionSpacing t) = addOptionSpacing t) ∧
    (∀ raw, processOneText raw ≠ [] →
      ∀ c ∈ (processOneText raw).getLast?, isWS c = false) := by
  have hfix : ∀ raw, pyRstrip (processOneText raw) = processOneText raw := by
    intro raw
    unfold processOneText
    by_cases h : (cleanOutput raw).isEmpty
    · simp only [h, if_true]
      rfl
    · simp only [h, Bool.false_eq_true, if_false]
      exact addOptionSpacing_rstrip_fix _
  exact ⟨hfix, addTableSpacing_rstrip_fix, addOptionSpacing_rstrip_fix,
    fun raw _ => rstrip_fix_last_not_ws _ (hfix raw)⟩

/-- Claim C10 witness. -/
theorem claimC10_no_trailing_whitespace_witness :
    processOneText "hi".toList ≠ [] ∧
    (∀ c ∈ (processOneText "hi".toList).getLast?, isWS c = false) :=
  ⟨by decide, claimC10_no_trailing_whitespace.2.2.2 "hi".toList (by decide)⟩

/-! ## Claims C1 and C2: counterexamples to the universally quantified forms -/

/-- Claim C1 counterexample: the pipeline is not idempotent.  On
`"<<<TE<<<TEXT>>>XT>>>"` the marker scrub reconstitutes a marker
(`"<<<TE" ++ "XT>>>"` after deleting the inner `<<<TEXT>>>`), so the first
pass returns `"<<<TEXT>>>"` while the second pass scrubs it to the empty
string. -/
theorem claimC1_counterexample :
    processOneText (processOneText "<<<TE<<<TEXT>>>XT>>>".toList) ≠
      processOneText "<<<TE<<<TEXT>>>XT>>>".toList := by
  decide

/-- Claim C2 counterexample: with `X = "<<<TEXT>>>a<<<END>>>"`, the wrapped
output `<<<OUT>>>\nX\n<<<ENDOUT>>>` is cleaned to `"a"` (the echo-extraction
stage fires on the markers inside `X`), not to `X` stripped. -/
theorem claimC2_counterexample :
    cleanOutput (outMarker ++ '\n' :: "<<<TEXT>>>a<<<END>>>".toList ++ '\n' :: endoutMarker) ≠
      pyStrip "<<<TEXT>>>a<<<END>>>".toList := by
  decide

/-! ## Fuel irrelevance and step equations for the fueled loops -/

theorem removeAllF_fuel (pat : Str) (fuel fuel' : Nat) (s : Str)
    (h : s.length ≤ fuel) (h' : s.length ≤ fuel') :
    removeAllF pat fuel s = removeAllF pat fuel' s := by
  induction fuel generalizing fuel' s with
  | zero =>
    have : s = [] := by
      cases s with
      | nil => rfl
      | cons c cs => simp at h
    subst this
    cases fuel' <;> rfl
  | succ fuel ih =>
    cases s with
    | nil => cases fuel' <;> rfl
    | cons c cs =>
      cases fuel' with
      | zero => simp at h'
      | succ fuel' =>
        show (if pat ≠ [] ∧ pat.isPrefixOf (c :: cs) then
            removeAllF pat fuel ((c :: cs).drop pat.length)
          else c :: removeAllF pat fuel cs) =
          (if pat ≠ [] ∧ pat.isPrefixOf (c :: cs) then
            removeAllF pat fuel' ((c :: cs).drop pat.length)
          else c :: removeAllF pat fuel' cs)
        by_cases hc : pat ≠ [] ∧ pat.isPrefixOf (c :: cs)
        · rw [if_pos hc, if_pos hc]
          have hplen : 1 ≤ pat.length := by
            cases hp : pat with
            | nil => exact absurd hp hc.1
            | cons a l => simp
          have hd : ((c :: cs).drop pat.length).length ≤ fuel := by
            simp only [List.length_drop, List.length_cons]
            simp only [List.length_cons] at h
            omega
          have hd' : ((c :: cs).drop pat.length).length ≤ fuel' := by
            simp only [List.length_drop, List.length_cons]
            simp only [List.length_cons] at h'
            omega
          exact ih _ _ hd hd'
        · rw [if_neg hc, if_neg hc]
          have : cs.length ≤ fuel := by
            simp only [List.length_cons] at h
            omega
          have h2 : cs.length ≤ fuel' := by
            simp only [List.length_cons] at h'
            omega
          rw [ih _ _ this h2]

theorem removeAll_nil (pat : Str) : removeAll pat [] = [] := rfl

theorem removeAll_cons_pos (pat : Str) (c : Char) (cs : Str)
    (hne : pat ≠ []) (hp : pat.isPrefixOf (c :: cs)) :
    removeAll pat (c :: cs) = removeAll pat ((c :: cs).drop pat.length) := by
  show removeAllF pat (cs.length + 1) (c :: cs) = _
  rw [show removeAllF pat (cs.length + 1) (c :: cs) =
      removeAllF pat cs.length ((c :: cs).drop pat.length) by
    simp [removeAllF, hne, hp]]
  have hplen : 1 ≤ pat.length := by
    cases hq : pat with
    | nil => exact absurd hq hne
    | cons a l => simp
  exact removeAllF_fuel pat cs.length _ _
    (by simp only [List.length_drop, List.length_cons]; omega)
    (le_refl _)

theorem removeAll_cons_neg (pat : Str) (c : Char) (cs : Str)
    (h : ¬(pat ≠ [] ∧ pat.isPrefixOf (c :: cs))) :
    removeAll pat (c :: cs) = c :: removeAll pat cs := by
  show removeAllF pat (cs.length + 1) (c :: cs) = _
  simp only [removeAllF, h, if_false]
  rfl

theorem tableGoF_fuel (fuel fuel' : Nat) (lines result : List Str)
    (h : lines.length ≤ fuel) (h' : lines.length ≤ fuel') :
    tableGoF fuel lines result = tableGoF fuel' lines result := by
  induction fuel generalizing fuel' lines result with
  | zero =>
    have : lines = [] := by
      cases lines with
      | nil => rfl
      | cons l ls => simp at h
    subst this
    cases fuel' <;> rfl
  | succ fuel ih =>
    cases lines with
    | nil => cases fuel' <;> rfl
    | cons l ls =>
      cases fuel' with
      | zero => simp at h'
      | succ fuel' =>
        show (if isTableLine l then _ else _) = (if isTableLine l then _ else _)
        by_cases ht : isTableLine l
        · rw [if_pos ht, if_pos ht]
          have hlen : ((l :: ls).dropWhile isTableLine).length ≤ fuel := by
            rw [List.dropWhile_cons_of_pos ht]
            have := dropWhile_length_le isTableLine ls
            simp only [List.length_cons] at h
            omega
          have hlen' : ((l :: ls).dropWhile isTableLine).length ≤ fuel' := by
            rw [List.dropWhile_cons_of_pos ht]
            have := dropWhile_length_le isTableLine ls
            simp only [List.length_cons] at h'
            omega
          exact ih _ _ _ hlen hlen'
        · rw [if_neg ht, if_neg ht]
          have h1 : ls.length ≤ fuel := by
            simp only [List.length_cons] at h
            omega
          have h2 : ls.length ≤ fuel' := by
            simp only [List.length_cons] at h'
            omega
          exact ih _ _ _ h1 h2

theorem tableGo_nil (result : List Str) : tableGo [] result = result := rfl

theorem tableGo_cons_nontab (l : Str) (ls result : List Str) (h : isTableLine l = false) :
    tableGo (l :: ls) result = tableGo ls (result ++ [l]) := by
  show tableGoF (ls.length + 1) (l :: ls) result = _
  simp only [tableGoF, h, Bool.false_eq_true, if_false]
  rfl

theorem tableGo_cons_tab (l : Str) (ls result : List Str) (h : isTableLine l = true) :
    tableGo (l :: ls) result =
      tableGo (ls.dropWhile isTableLine)
        (match (ls.dropWhile isTableLine).head? with
         | some r =>
           if (pyStrip r).isEmpty then
             (if lastNonblank result then result ++ [([] : Str)] else result) ++
               (l :: ls.takeWhile isTableLine)
           else
             ((if lastNonblank result then result ++ [([] : Str)] else result) ++
               (l :: ls.takeWhile isTableLine)) ++ [([] : Str)]
         | none =>
           (if lastNonblank result then result ++ [([] : Str)] else result) ++
             (l :: ls.takeWhile isTableLine)) := by
  show tableGoF (ls.length + 1) (l :: ls) result = _
  simp only [tableGoF, h, if_true, List.takeWhile_cons_of_pos h,
    List.dropWhile_cons_of_pos h]
  have hlen : (ls.dropWhile isTableLine).length ≤ ls.length := dropWhile_length_le _ _
  cases hh : (ls.dropWhile isTableLine).head? with
  | none =>
    simp only [hh]
    exact tableGoF_fuel _ _ _ _ hlen (le_refl _)
  | some r =>
    simp only [hh]
    by_cases hr : (pyStrip r).isEmpty
    · simp only [hr, if_true]
      exact tableGoF_fuel _ _ _ _ hlen (le_refl _)
    · simp only [hr, Bool.false_eq_true, if_false]
      exact tableGoF_fuel _ _ _ _ hlen (le_refl _)

theorem specTableSpacingF_fuel (fuel fuel' : Nat) (p : Bool) (lines : List Str)
    (h : lines.length ≤ fuel) (h' : lines.length ≤ fuel') :
    specTableSpacingF fuel p lines = specTableSpacingF fuel' p lines := by
  induction fuel generalizing fuel' p lines with
  | zero =>
    have : lines = [] := by
      cases lines with
      | nil => rfl
      | cons l ls => simp at h
    subst this
    cases fuel' <;> rfl
  | succ fuel ih =>
    cases lines with
    | nil => cases fuel' <;> rfl
    | cons l ls =>
      cases fuel' with
      | zero => simp at h'
      | succ fuel' =>
        show (if isTableLine l then _ else _) = (if isTableLine l then _ else _)
        by_cases ht : isTableLine l
        · rw [if_pos ht, if_pos ht]
          have hlen : ((l :: ls).dropWhile isTableLine).length ≤ fuel := by
            rw [List.dropWhile_cons_of_pos ht]
            have := dropWhile_length_le isTableLine ls
            simp only [List.length_cons] at h
            omega
          have hlen' : ((l :: ls).dropWhile isTableLine).length ≤ fuel' := by
            rw [List.dropWhile_cons_of_pos ht]
            have := dropWhile_length_le isTableLine ls
            simp only [List.length_cons] at h'
            omega
          dsimp only
          rw [ih _ _ _ hlen hlen']
        · rw [if_neg ht, if_neg ht]
          have h1 : ls.length ≤ fuel := by
            simp only [List.length_cons] at h
            omega
          have h2 : ls.length ≤ fuel' := by
            simp only [List.length_cons] at h'
            omega
          rw [ih _ _ _ h1 h2]

theorem specTS_nil (p : Bool) : specTableSpacing p [] = [] := rfl

theorem specTS_cons_nontab (p : Bool) (l : Str) (ls : List Str) (h : isTableLine l = false) :
    specTableSpacing p (l :: ls) = l :: specTableSpacing (!(pyStrip l).isEmpty) ls := by
  show specTableSpacingF (ls.length + 1) p (l :: ls) = _
  simp only [specTableSpacingF, h, Bool.false_eq_true, if_false]
  rfl

theorem specTS_cons_tab (p : Bool) (l : Str) (ls : List Str) (h : isTableLine l = true) :
    specTableSpacing p (l :: ls) =
      (if p then [([] : Str)] else []) ++ (l :: ls.takeWhile isTableLine) ++
        (match (ls.dropWhile isTableLine).head? with
         | some r => if (pyStrip r).isEmpty then ([] : List Str) else [[]]
         | none => []) ++
        specTableSpacing
          (match (ls.dropWhile isTableLine).head? with
           | some r => (pyStrip r).isEmpty
           | none => true)
          (ls.dropWhile isTableLine) := by
  show specTableSpacingF (ls.length + 1) p (l :: ls) = _
  simp only [specTableSpacingF, h, if_true, List.takeWhile_cons_of_pos h,
    List.dropWhile_cons_of_pos h]
  have hlen : (ls.dropWhile isTableLine).length ≤ ls.length := dropWhile_length_le _ _
  rw [specTableSpacingF_fuel ls.length (ls.dropWhile isTableLine).length _ _ hlen (le_refl _)]
  rfl

/-! ## Blankness lemmas -/

theorem pyRstrip_eq_nil_iff (s : Str) : pyRstrip s = [] ↔ ∀ c ∈ s, isWS c = true := by
  unfold pyRstrip
  rw [List.reverse_eq_nil_iff, List.dropWhile_eq_nil_iff]
  constructor
  · intro h c hc
    exact h c (List.mem_reverse.mpr hc)
  · intro h c hc
    exact h c (List.mem_reverse.mp hc)

theorem blank_iff_all_ws (s : Str) : (pyStrip s).isEmpty = true ↔ ∀ c ∈ s, isWS c = true := by
  rw [List.isEmpty_iff]
  unfold pyStrip
  rw [← rstrip_lstrip_comm, pyRstrip_eq_nil_iff]
  constructor
  · intro h c hc
    rw [show s = s.takeWhile isWS ++ s.dropWhile isWS from
      (List.takeWhile_append_dropWhile isWS s).symm] at hc
    rcases List.mem_append.mp hc with h1 | h1
    · exact List.mem_takeWhile_imp h1
    · exact h c h1
  · intro h c hc
    exact h c ((List.dropWhile_sublist isWS).mem hc)

theorem isTableLine_nonblank (x : Str) (h : isTableLine x = true) :
    (pyStrip x).isEmpty = false := by
  unfold isTableLine at h
  rw [Bool.and_eq_true] at h
  have hpipe : '|' ∈ x := by
    have h1 := h.1
    have : '|' ∈ pyLstrip x := by
      cases hl : pyLstrip x with
      | nil => rw [hl] at h1; simp [List.isPrefixOf] at h1
      | cons a l =>
        rw [hl] at h1
        simp [List.isPrefixOf] at h1
        exact List.mem_cons.mpr (Or.inl h1)
    exact (List.dropWhile_sublist isWS).mem this
  by_contra hb
  have hb' : (pyStrip x).isEmpty = true := by simpa using hb
  have := (blank_iff_all_ws x).mp hb' '|' hpipe
  simp [isWS] at this

theorem lastNonblank_concat (result : List Str) (l : Str) :
    lastNonblank (result ++ [l]) = !(pyStrip l).isEmpty := by
  unfold lastNonblank
  rw [List.getLast?_concat]

theorem lastNonblank_append_run (a : List Str) (run : List Str) (hne : run ≠ [])
    (hall : ∀ x ∈ run, isTableLine x = true) :
    lastNonblank (a ++ run) = true := by
  obtain ⟨run', x, rfl⟩ : ∃ run' x, run = run' ++ [x] := by
    cases hr : run.reverse with
    | nil => simp [List.reverse_eq_nil_iff] at hr; exact absurd hr hne
    | cons y t =>
      refine ⟨t.reverse, y, ?_⟩
      have := congrArg List.reverse hr
      simpa using this
  rw [← List.append_assoc, lastNonblank_concat]
  simp [isTableLine_nonblank x (hall x (by simp))]

/-! ## The table-spacing loop equals its run-based description (claim C4) -/

theorem tableGo_eq_spec : ∀ (n : Nat) (lines result : List Str), lines.length ≤ n →
    tableGo lines result = result ++ specTableSpacing (lastNonblank result) lines := by
  intro n
  induction n with
  | zero =>
    intro lines result h
    have : lines = [] := by
      cases lines with
      | nil => rfl
      | cons l ls => simp at h
    subst this
    simp [tableGo_nil, specTS_nil]
  | succ n ih =>
    intro lines result h
    cases lines with
    | nil => simp [tableGo_nil, specTS_nil]
    | cons l ls =>
      by_cases ht : isTableLine l
      · rw [tableGo_cons_tab l ls result ht, specTS_cons_tab _ l ls ht]
        have hrest : (ls.dropWhile isTableLine).length ≤ n := by
          have := dropWhile_length_le isTableLine ls
          simp only [List.length_cons] at h
          omega
        have hrun : ∀ x ∈ l :: ls.takeWhile isTableLine, isTableLine x = true := by
          intro x hx
          rcases List.mem_cons.mp hx with h1 | h1
          · rw [h1]; exact ht
          · exact List.mem_takeWhile_imp h1
        have hpush : (if lastNonblank result = true then result ++ [([] : Str)] else result) =
            result ++ (if lastNonblank result = true then [([] : Str)] else []) := by
          split_ifs <;> simp
        cases hh : (ls.dropWhile isTableLine).head? with
        | none =>
          have hrestnil : ls.dropWhile isTableLine = [] := by
            cases hr : ls.dropWhile isTableLine with
            | nil => rfl
            | cons a b => rw [hr] at hh; simp at hh
          rw [ih _ _ hrest]
          rw [hrestnil, specTS_nil, specTS_nil]
          simp [hpush, List.append_assoc]
        | some r =>
          by_cases hr : (pyStrip r).isEmpty
          · simp only [hh, hr, if_true]
            rw [ih _ _ hrest]
            have hlast : lastNonblank
                ((if lastNonblank result then result ++ [([] : Str)] else result) ++
                  (l :: ls.takeWhile isTableLine)) = true := by
              apply lastNonblank_append_run _ _ (by simp) hrun
            rw [hlast]
            simp [hpush, List.append_assoc]
          · simp only [hh, hr, Bool.false_eq_true, if_false]
            rw [ih _ _ hrest]
            have hlast : lastNonblank
                (((if lastNonblank result then result ++ [([] : Str)] else result) ++
                  (l :: ls.takeWhile isTableLine)) ++ [([] : Str)]) = false := by
              rw [lastNonblank_concat]
              simp [pyStrip, pyLstrip, pyRstrip]
            rw [hlast]
            simp [hpush, List.append_assoc]
      · have ht' : isTableLine l = false := by simpa using ht
        rw [tableGo_cons_nontab l ls result ht', specTS_cons_nontab _ l ls ht']
        have hls : ls.length ≤ n := by
          simp only [List.length_cons] at h
          omega
        rw [ih ls (result ++ [l]) hls, lastNonblank_concat]
        simp [List.append_assoc]

/-- Claim C4: the table-spacing pass inserts exactly one blank line before
each maximal run of table lines whose preceding output line exists and is
non-blank, one blank line after each run whose following source line exists
and is non-blank, and passes other lines through unchanged (the loop equals
the run-based description `specTableSpacing`); on the given example it
produces the expected spacing. -/
theorem claimC4_table_spacing :
    (∀ lines, tableGo lines [] = specTableSpacing false lines) ∧
    tableGo ["intro".toList, "|a|b|".toList, "|-|-|".toList, "|1|2|".toList,
        "outro".toList] [] =
      ["intro".toList, [], "|a|b|".toList, "|-|-|".toList, "|1|2|".toList, [],
        "outro".toList] ∧
    addTableSpacing "intro\n|a|b|\n|-|-|\n|1|2|\noutro".toList =
      "intro\n\n|a|b|\n|-|-|\n|1|2|\n\noutro".toList := by
  refine ⟨fun lines => ?_, by decide, by decide⟩
  have := tableGo_eq_spec lines.length lines [] (le_refl _)
  simpa [lastNonblank] using this

/-! ## The option-spacing loop: description and idempotence (claim C5) -/

theorem head_dropWhile_not (p : α → Bool) (l : List α) (c : α) (rest : List α)
    (h : l.dropWhile p = c :: rest) : p c = false := by
  induction l with
  | nil => simp at h
  | cons a t ih =>
    by_cases hp : p a
    · rw [List.dropWhile_cons_of_pos hp] at h
      exact ih h
    · rw [List.dropWhile_cons_of_neg (by simpa using hp)] at h
      cases h
      simpa using hp

theorem isOptionLine_nonblank (line : Str) (h : isOptionLine line = true) :
    (pyStrip line).isEmpty = false := by
  cases hl : line.dropWhile isWS with
  | nil =>
    unfold isOptionLine at h
    rw [hl] at h
    simp at h
  | cons c rest =>
    have hcw : isWS c = false := head_dropWhile_not isWS line c rest hl
    have hcmem : c ∈ line := by
      have : c ∈ line.dropWhile isWS := by
        rw [hl]
        simp
      exact (List.dropWhile_sublist isWS).mem this
    by_contra hb
    have hb' : (pyStrip line).isEmpty = true := by simpa using hb
    have := (blank_iff_all_ws line).mp hb' c hcmem
    rw [this] at hcw
    simp at hcw

theorem optionGo_eq_spec (lines : List Str) : ∀ (result : List Str) (inBlock : Bool),
    optionGo lines result inBlock =
      result ++ specOptionSpacing inBlock (lastNonblank result) lines := by
  induction lines with
  | nil =>
    intro result inBlock
    simp [optionGo, specOptionSpacing]
  | cons line ls ih =>
    intro result inBlock
    by_cases ho : isOptionLine line
    · have hnb : (pyStrip line).isEmpty = false := isOptionLine_nonblank line ho
      simp only [optionGo, specOptionSpacing, ho, if_true]
      rw [ih]
      rw [lastNonblank_concat, hnb]
      by_cases hc : (!inBlock && lastNonblank result) = true
      · rw [if_pos hc, if_pos hc]
        simp [List.append_assoc]
      · rw [if_neg hc, if_neg hc]
        simp [List.append_assoc]
    · have ho' : isOptionLine line = false := by simpa using ho
      simp only [optionGo, specOptionSpacing, ho', Bool.false_eq_true, if_false]
      rw [ih, lastNonblank_concat]
      simp [List.append_assoc]

theorem specOption_idem (L : List Str) : ∀ b p : Bool,
    specOptionSpacing b p (specOptionSpacing b p L) = specOptionSpacing b p L := by
  induction L with
  | nil =>
    intro b p
    rfl
  | cons l ls ih =>
    intro b p
    have hblank0 : (pyStrip ([] : Str)).isEmpty = true := rfl
    have hopt0 : isOptionLine ([] : Str) = false := rfl
    by_cases ho : isOptionLine l
    · have hnb : (pyStrip l).isEmpty = false := isOptionLine_nonblank l ho
      by_cases hc : (!b && p) = true
      · -- one blank line inserted before the option line
        have hout : specOptionSpacing b p (l :: ls) =
            [] :: l :: specOptionSpacing true true ls := by
          simp [specOptionSpacing, ho, hc]
        rw [hout]
        have h1 : specOptionSpacing b p ([] :: l :: specOptionSpacing true true ls) =
            [] :: specOptionSpacing b false (l :: specOptionSpacing true true ls) := by
          simp [specOptionSpacing, hopt0, hblank0]
        rw [h1]
        have h2 : specOptionSpacing b false (l :: specOptionSpacing true true ls) =
            l :: specOptionSpacing true true (specOptionSpacing true true ls) := by
          simp [specOptionSpacing, ho]
        rw [h2, ih]
      · have hout : specOptionSpacing b p (l :: ls) =
            l :: specOptionSpacing true true ls := by
          simp [specOptionSpacing, ho, hc]
        rw [hout]
        have h2 : specOptionSpacing b p (l :: specOptionSpacing true true ls) =
            l :: specOptionSpacing true true (specOptionSpacing true true ls) := by
          simp [specOptionSpacing, ho, hc]
        rw [h2, ih]
    · have ho' : isOptionLine l = false := by simpa using ho
      have hout : specOptionSpacing b p (l :: ls) =
          l :: specOptionSpacing (if (pyStrip l).isEmpty then b else false)
            (!(pyStrip l).isEmpty) ls := by
        simp [specOptionSpacing, ho']
      rw [hout]
      have h2 : specOptionSpacing b p
          (l :: specOptionSpacing (if (pyStrip l).isEmpty then b else false)
            (!(pyStrip l).isEmpty) ls) =
          l :: specOptionSpacing (if (pyStrip l).isEmpty then b else false)
            (!(pyStrip l).isEmpty)
            (specOptionSpacing (if (pyStrip l).isEmpty then b else false)
              (!(pyStrip l).isEmpty) ls) := by
        simp [specOptionSpacing, ho']
      rw [h2, ih]

/-- Claim C5: the option-spacing pass equals its stated description
(`specOptionSpacing`: exactly one blank line per option-block start, none
between consecutive option lines, blank lines pass through without closing
the block), it is idempotent under re-application, and on the given example
it inserts a single blank line only before `"A. foo"`. -/
theorem claimC5_option_spacing :
    (∀ lines, optionGo lines [] false = specOptionSpacing false false lines) ∧
    (∀ lines, optionGo (optionGo lines [] false) [] false = optionGo lines [] false) ∧
    optionGo ["Question:".toList, "A. foo".toList, "B. bar".toList,
        "Next para".toList] [] false =
      ["Question:".toList, [], "A. foo".toList, "B. bar".toList, "Next para".toList] ∧
    addOptionSpacing "Question:\nA. foo\nB. bar\nNext para".toList =
      "Question:\n\nA. foo\nB. bar\nNext para".toList := by
  have hb : ∀ lines, optionGo lines [] false = specOptionSpacing false false lines := by
    intro lines
    have := optionGo_eq_spec lines [] false
    simpa [lastNonblank] using this
  refine ⟨hb, fun lines => ?_, by decide, by decide⟩
  calc optionGo (optionGo lines [] false) [] false
      = specOptionSpacing false false (specOptionSpacing false false lines) := by
        rw [hb, hb]
    _ = specOptionSpacing false false lines := specOption_idem lines false false
    _ = optionGo lines [] false := (hb lines).symm

/-! ## Occurrence and splitting lemmas for the extraction stages (claim C2) -/

theorem occurs_infix_iff (pat s : Str) : occurs pat s = true ↔ pat <:+: s := by
  induction s with
  | nil =>
    show pat.isEmpty = true ↔ pat <:+: []
    rw [List.isEmpty_iff]
    constructor
    · intro h
      subst h
      exact List.nil_infix
    · intro h
      obtain ⟨u, v, huv⟩ := h
      have := congrArg List.length huv
      simp at this
      exact this.2.1
  | cons c cs ih =>
    show (pat.isPrefixOf (c :: cs) || occurs pat cs) = true ↔ pat <:+: c :: cs
    rw [Bool.or_eq_true, List.isPrefixOf_iff_prefix, ih, List.infix_cons_iff]

theorem prefix_append_excl (p : Str) (c : Char) (hc : c ∉ p) (u v : Str) :
    p <+: (u ++ c :: v) ↔ p <+: u := by
  induction u generalizing p with
  | nil =>
    constructor
    · intro h
      cases p with
      | nil => exact List.nil_prefix
      | cons q p' =>
        obtain ⟨t, ht⟩ := h
        simp at ht
        exact absurd (ht.1 ▸ List.mem_cons_self q p') (ht.1 ▸ hc)
    · intro h
      have := List.prefix_nil.mp h
      subst this
      exact List.nil_prefix
  | cons x u' ih =>
    constructor
    · intro h
      cases p with
      | nil => exact List.nil_prefix
      | cons q p' =>
        rw [List.cons_append] at h
        rw [List.cons_prefix_cons] at h
        obtain ⟨hq, hp'⟩ := h
        have hc' : c ∉ p' := fun hm => hc (List.mem_cons_of_mem q hm)
        rw [List.cons_prefix_cons]
        exact ⟨hq, (ih p' hc').mp hp'⟩
    · intro h
      exact h.trans (List.prefix_append _ _)

theorem infix_append_excl (p : Str) (c : Char) (hc : c ∉ p) (a b : Str) :
    p <:+: (a ++ c :: b) ↔ p <:+: a ∨ p <:+: b := by
  induction a generalizing p with
  | nil =>
    simp only [List.nil_append]
    rw [List.infix_cons_iff]
    constructor
    · rintro (h | h)
      · cases p with
        | nil => exact Or.inl List.nil_infix
        | cons q p' =>
          obtain ⟨t, ht⟩ := h
          simp at ht
          exact absurd (ht.1 ▸ List.mem_cons_self q p') (ht.1 ▸ hc)
      · exact Or.inr h
    · rintro (h | h)
      · obtain ⟨u, v, huv⟩ := h
        have := congrArg List.length huv
        simp at this
        have hp : p = [] := this.2.1
        subst hp
        exact Or.inl (List.nil_prefix)
      · exact Or.inr h
  | cons x a' ih =>
    rw [List.cons_append, List.infix_cons_iff, List.infix_cons_iff]
    constructor
    · rintro (h | h)
      · cases p with
        | nil => exact Or.inl (Or.inl List.nil_prefix)
        | cons q p' =>
          rw [List.cons_prefix_cons] at h
          obtain ⟨hq, hp'⟩ := h
          have hc' : c ∉ p' := fun hm => hc (List.mem_cons_of_mem q hm)
          rw [List.cons_prefix_cons]
          exact Or.inl (Or.inl ⟨hq, (prefix_append_excl p' c hc' a' b).mp hp'⟩)
      · rcases (ih p hc).mp h with h1 | h1
        · exact Or.inl (Or.inr h1)
        · exact Or.inr h1
    · rintro ((h | h) | h)
      · exact Or.inl (h.trans (List.prefix_append (x :: a') (c :: b)))
      · exact Or.inr ((ih p hc).mpr (Or.inl h))
      · exact Or.inr ((ih p hc).mpr (Or.inr h))

theorem occurs_false_of_decomp (p : Str) (c : Char) (hc : c ∉ p) (a b : Str)
    (ha : occurs p a = false) (hb : occurs p b = false) :
    occurs p (a ++ c :: b) = false := by
  rw [← Bool.not_eq_true]
  rw [occurs_infix_iff, infix_append_excl p c hc a b]
  rintro (h | h)
  · rw [← occurs_infix_iff, ha] at h
    simp at h
  · rw [← occurs_infix_iff, hb] at h
    simp at h

theorem not_occurs_removeAll (pat s : Str) (h : occurs pat s = false) :
    removeAll pat s = s := by
  induction s with
  | nil => rfl
  | cons c cs ih =>
    have h' : (pat.isPrefixOf (c :: cs) || occurs pat cs) = false := h
    rw [Bool.or_eq_false_iff] at h'
    rw [removeAll_cons_neg pat c cs (fun hcontra => by
      rw [hcontra.2] at h'
      simp at h')]
    rw [ih h'.2]

theorem removeAll_append_safe (p : Str) (a : Str) (c : Char) (b : Str)
    (hc : c ∉ p) (ha : occurs p a = false) :
    removeAll p (a ++ c :: b) = a ++ removeAll p (c :: b) := by
  induction a with
  | nil => rfl
  | cons x a' ih =>
    have h' : (p.isPrefixOf (x :: a') || occurs p a') = false := ha
    rw [Bool.or_eq_false_iff] at h'
    have hnp : p.isPrefixOf ((x :: a') ++ c :: b) = false := by
      rw [← Bool.not_eq_true, List.isPrefixOf_iff_prefix]
      intro hcontra
      rw [List.cons_append] at hcontra
      have := (prefix_append_excl p c hc (x :: a') b).mp (by rwa [List.cons_append])
      rw [← List.isPrefixOf_iff_prefix] at this
      rw [this] at h'
      simp at h'
    rw [List.cons_append]
    rw [removeAll_cons_neg p x (a' ++ c :: b) (fun hcontra => by
      rw [← List.cons_append] at hcontra
      rw [hnp] at hcontra
      simp at hcontra)]
    rw [ih h'.2]
    rw [List.cons_append]

theorem joinNl_cons_of_ne_nil (l : Str) (ls : List Str) (h : ls ≠ []) :
    joinNl (l :: ls) = l ++ '\n' :: joinNl ls := by
  cases ls with
  | nil => exact absurd rfl h
  | cons a t => rfl

theorem joinNl_splitNlAux (s cur : Str) : joinNl (splitNlAux s cur) = cur.reverse ++ s := by
  induction s generalizing cur with
  | nil => simp [splitNlAux, joinNl]
  | cons c cs ih =>
    unfold splitNlAux
    by_cases hc : c = '\n'
    · rw [if_pos hc]
      rw [joinNl_cons_of_ne_nil _ _ (splitNlAux_ne_nil cs [])]
      rw [ih []]
      simp [hc]
    · rw [if_neg hc]
      rw [ih (c :: cur)]
      simp

theorem joinNl_splitOnNl (s : Str) : joinNl (splitOnNl s) = s := by
  unfold splitOnNl
  rw [joinNl_splitNlAux]
  rfl

theorem splitNlAux_cons (c : Char) (cs cur : Str) :
    splitNlAux (c :: cs) cur =
      if c = '\n' then cur.reverse :: splitNlAux cs [] else splitNlAux cs (c :: cur) := rfl

theorem splitNlAux_append_nl (A : Str) (hA : '\n' ∉ A) (R : Str) : ∀ cur,
    splitNlAux (A ++ '\n' :: R) cur = (cur.reverse ++ A) :: splitNlAux R [] := by
  induction A with
  | nil =>
    intro cur
    simp [splitNlAux_cons]
  | cons a A' ih =>
    intro cur
    have ha : a ≠ '\n' := fun h => hA (h ▸ List.mem_cons_self a A')
    rw [List.cons_append, splitNlAux_cons, if_neg ha,
      ih (fun h => hA (List.mem_cons_of_mem a h)) (a :: cur)]
    congr 1
    simp

theorem splitOnNl_append_nl (A : Str) (hA : '\n' ∉ A) (R : Str) :
    splitOnNl (A ++ '\n' :: R) = A :: splitOnNl R := by
  unfold splitOnNl
  rw [splitNlAux_append_nl A hA R []]
  rfl

theorem splitNlAux_concat_nl (s : Str) : ∀ cur,
    splitNlAux (s ++ ['\n']) cur = splitNlAux s cur ++ [[]] := by
  induction s with
  | nil =>
    intro cur
    simp [splitNlAux]
  | cons c cs ih =>
    intro cur
    rw [List.cons_append]
    unfold splitNlAux
    by_cases hc : c = '\n'
    · rw [if_pos hc, if_pos hc, ih []]
      rfl
    · rw [if_neg hc, if_neg hc, ih (c :: cur)]

theorem splitOnNl_concat_nl (s : Str) : splitOnNl (s ++ ['\n']) = splitOnNl s ++ [[]] :=
  splitNlAux_concat_nl s []

theorem getLast?_cons_of_ne_nil (a : α) (l : List α) (h : l ≠ []) :
    (a :: l).getLast? = l.getLast? := by
  cases l with
  | nil => exact absurd rfl h
  | cons b t => exact List.getLast?_cons_cons

theorem splitNlAux_last_nil_iff (s : Str) : ∀ cur,
    (splitNlAux s cur).getLast? = some [] ↔
      (s = [] ∧ cur = []) ∨ s.getLast? = some '\n' := by
  induction s with
  | nil =>
    intro cur
    show [cur.reverse].getLast? = some [] ↔ _
    simp [List.getLast?]
  | cons c cs ih =>
    intro cur
    unfold splitNlAux
    by_cases hc : c = '\n'
    · rw [if_pos hc]
      rw [getLast?_cons_of_ne_nil _ _ (splitNlAux_ne_nil cs [])]
      rw [ih []]
      cases cs with
      | nil =>
        subst hc
        simp [List.getLast?]
      | cons d ds =>
        rw [getLast?_cons_of_ne_nil c (d :: ds) (by simp)]
        simp
    · rw [if_neg hc]
      rw [ih (c :: cur)]
      cases cs with
      | nil =>
        simp [List.getLast?, hc]
      | cons d ds =>
        rw [getLast?_cons_of_ne_nil c (d :: ds) (by simp)]
        simp

theorem splitLinesNl_of_last_not_nl (s : Str) (h : s.getLast? ≠ some '\n') (hne : s ≠ []) :
    splitLinesNl s = splitOnNl s := by
  unfold splitLinesNl
  rw [if_neg]
  intro hcontra
  rcases (splitNlAux_last_nil_iff s []).mp hcontra with ⟨h1, -⟩ | h1
  · exact hne h1
  · exact h h1

theorem nlOnly_cons (c : Char) (cs : Str) :
    nlOnly (c :: cs) = ((!(isLineBreak c) || c = '\n') && nlOnly cs) := rfl

theorem nlOnly_iff (s : Str) :
    nlOnly s = true ↔ ∀ c ∈ s, isLineBreak c = true → c = '\n' := by
  induction s with
  | nil => simp [nlOnly]
  | cons a t ih =>
    rw [nlOnly_cons, Bool.and_eq_true, ih]
    constructor
    · rintro ⟨h1, h2⟩ c hc hbr
      rcases List.mem_cons.mp hc with h3 | h3
      · subst h3
        rw [hbr] at h1
        simpa using h1
      · exact h2 c h3 hbr
    · intro h
      refine ⟨?_, fun c hc hbr => h c (List.mem_cons_of_mem a hc) hbr⟩
      by_cases hbr : isLineBreak a = true
      · have ha := h a (List.mem_cons_self a t) hbr
        subst ha
        decide
      · have hbf : isLineBreak a = false := by simpa using hbr
        rw [hbf]
        rfl

theorem break_free_not_nl_mem (m : Str) (h : ∀ c ∈ m, isLineBreak c = false) :
    '\n' ∉ m := by
  intro hc
  have h2 := h '\n' hc
  exact absurd h2 (by decide)

theorem splitLinesF_eq_nl (s : Str) : ∀ cur, nlOnly s = true →
    splitLinesF s cur false =
      (if (splitNlAux s cur).getLast? = some [] then (splitNlAux s cur).dropLast
       else splitNlAux s cur) := by
  induction s with
  | nil =>
    intro cur _
    cases cur with
    | nil => rfl
    | cons a t =>
      rw [show splitNlAux [] (a :: t) = [(a :: t).reverse] from rfl,
        show splitLinesF [] (a :: t) false = [(a :: t).reverse] from rfl]
      rw [if_neg (by simp)]
  | cons c cs ih =>
    intro cur hnl
    have hnlcs : nlOnly cs = true := by
      rw [nlOnly_cons, Bool.and_eq_true] at hnl
      exact hnl.2
    rw [splitLinesF_cons]
    simp only [Bool.false_and, Bool.false_eq_true, if_false]
    by_cases hbr : isLineBreak c = true
    · have hcn : c = '\n' := by
        rw [nlOnly_cons, Bool.and_eq_true] at hnl
        have h1 := hnl.1
        rw [hbr] at h1
        simpa using h1
      rw [if_pos hbr]
      subst hcn
      rw [splitNlAux_cons, if_pos rfl]
      show cur.reverse :: splitLinesF cs [] false = _
      rw [ih [] hnlcs]
      have hne := splitNlAux_ne_nil cs []
      rw [getLast?_cons_of_ne_nil _ _ hne]
      by_cases hg : (splitNlAux cs []).getLast? = some []
      · rw [if_pos hg, if_pos hg]
        cases hp : splitNlAux cs [] with
        | nil => exact absurd hp hne
        | cons q qs => rfl
      · rw [if_neg hg, if_neg hg]
    · rw [if_neg hbr]
      have hcn' : ¬ c = '\n' := by
        intro hc
        rw [hc] at hbr
        exact hbr (by decide)
      rw [splitNlAux_cons, if_neg hcn']
      exact ih (c :: cur) hnlcs

theorem splitLines_eq_nl (s : Str) (h : nlOnly s = true) :
    splitLines s = splitLinesNl s := by
  unfold splitLines splitLinesNl
  dsimp only
  exact splitLinesF_eq_nl s [] h

theorem pyRstrip_eq_self_of_last (s : Str) (d : Char) (h : s.getLast? = some d)
    (hw : isWS d = false) : pyRstrip s = s := by
  have hrev : s.reverse.head? = some d := by rw [List.head?_reverse]; exact h
  obtain ⟨t, ht⟩ : ∃ t, s.reverse = d :: t := by
    cases hr : s.reverse with
    | nil => rw [hr] at hrev; simp at hrev
    | cons a u =>
      rw [hr] at hrev
      simp at hrev
      exact ⟨u, by rw [hrev]⟩
  unfold pyRstrip
  rw [ht, List.dropWhile_cons_of_neg (by simp [hw]), ← ht, List.reverse_reverse]

theorem pyLstrip_eq_self_of_head (s : Str) (c : Char) (h : s.head? = some c)
    (hw : isWS c = false) : pyLstrip s = s := by
  cases s with
  | nil => rfl
  | cons a t =>
    simp at h
    subst h
    exact List.dropWhile_cons_of_neg (by simp [hw])

theorem pyStrip_eq_self_of_ends (s : Str) (c d : Char) (hh : s.head? = some c)
    (hwc : isWS c = false) (hl : s.getLast? = some d) (hwd : isWS d = false) :
    pyStrip s = s := by
  unfold pyStrip
  rw [pyRstrip_eq_self_of_last s d hl hwd, pyLstrip_eq_self_of_head s c hh hwc]

theorem rfindIdx_none_iff (pat : Str) (hpat : pat ≠ []) (s : Str) :
    rfindIdx pat s = none ↔ occurs pat s = false := by
  induction s with
  | nil =>
    show (if pat.isPrefixOf ([] : Str) then some 0 else none) = none ↔ pat.isEmpty = false
    have : pat.isPrefixOf ([] : Str) = false := by
      rw [← Bool.not_eq_true, List.isPrefixOf_iff_prefix]
      intro h
      exact hpat (List.prefix_nil.mp h)
    rw [this]
    simp [List.isEmpty_iff, hpat]
  | cons c cs ih =>
    show (match rfindIdx pat cs with
      | some i => some (i + 1)
      | none => if pat.isPrefixOf (c :: cs) then some 0 else none) = none ↔
      (pat.isPrefixOf (c :: cs) || occurs pat cs) = false
    cases hr : rfindIdx pat cs with
    | some i =>
      simp only [Bool.or_eq_false_iff]
      constructor
      · intro h
        simp at h
      · intro h
        rw [ih.mpr h.2] at hr
        simp at hr
    | none =>
      have hocc : occurs pat cs = false := ih.mp hr
      simp only [hocc, Bool.or_false]
      by_cases hp : pat.isPrefixOf (c :: cs)
      · simp [hp]
      · simp [hp]

theorem rfindIdx_zero (pat : Str) (hpat : pat ≠ []) (c : Char) (cs : Str)
    (hp : pat.isPrefixOf (c :: cs) = true) (hocc : occurs pat cs = false) :
    rfindIdx pat (c :: cs) = some 0 := by
  show (match rfindIdx pat cs with
    | some i => some (i + 1)
    | none => if pat.isPrefixOf (c :: cs) then some 0 else none) = some 0
  rw [(rfindIdx_none_iff pat hpat cs).mpr hocc]
  simp [hp]

theorem prefix_append_iff_of_le (p u v : List α) (h : p.length ≤ u.length) :
    p <+: (u ++ v) ↔ p <+: u := by
  rw [List.prefix_iff_eq_take, List.prefix_iff_eq_take,
    List.take_append_of_le_length h]

theorem suffix_append_iff_of_le (p a b : Str) (h : p.length ≤ b.length) :
    p <:+ (a ++ b) ↔ p <:+ b := by
  constructor
  · intro hs
    rw [← List.reverse_prefix] at hs
    rw [List.reverse_append] at hs
    have h2 := (prefix_append_iff_of_le p.reverse b.reverse a.reverse
      (by simpa using h)).mp hs
    rw [← List.reverse_prefix]
    exact h2
  · intro hs
    exact hs.trans (List.suffix_append a b)

theorem stripCodeFences_id (t : Str) (hp : fenceStr.isPrefixOf t = false)
    (hsuf : fenceStr.isSuffixOf t = false) : stripCodeFences t = t := by
  unfold stripCodeFences
  rw [hp]
  simp only [Bool.false_eq_true, if_false]
  rw [hsuf]
  simp

theorem occurs_false_mono (m y x : Str) (hsub : y <:+: x) (hx : occurs m x = false) :
    occurs m y = false := by
  by_contra h
  have h' : occurs m y = true := by simpa using h
  rw [occurs_infix_iff] at h'
  have : occurs m x = true := (occurs_infix_iff m x).mpr (h'.trans hsub)
  rw [this] at hx
  simp at hx

/-- Claim C2 (amended): for a raw model output of exactly
`<<<OUT>>>\nX\n<<<ENDOUT>>>`, the extraction stages return `X` with
surrounding whitespace trimmed, provided `X` contains none of the four
markers, has no leading preamble (`corrected text is as follows`) lines,
its trimmed form neither starts nor ends with a code fence, and its only
line-boundary characters are plain newlines (`str.splitlines` rewrites any
other boundary, such as `\r`, to `\n` when the lines are rejoined). -/
theorem claimC2_wrapped_extraction (X : Str)
    (h1 : occurs textMarker X = false) (h2 : occurs endMarker X = false)
    (h3 : occurs outMarker X = false) (h4 : occurs endoutMarker X = false)
    (h5 : dropPreLines (splitOnNl (pyLstrip X)) = splitOnNl (pyLstrip X))
    (h6 : fenceStr.isPrefixOf (pyStrip X) = false)
    (h7 : fenceStr.isSuffixOf (pyStrip X) = false)
    (h8 : nlOnly X = true) :
    cleanOutput (outMarker ++ '\n' :: X ++ '\n' :: endoutMarker) = pyStrip X := by
  set s : Str := outMarker ++ '\n' :: X ++ '\n' :: endoutMarker with hsdef
  have hnlS : nlOnly s = true := by
    rw [nlOnly_iff]
    intro c hc hbr
    rw [hsdef] at hc
    rcases List.mem_append.mp hc with hm | hm
    · rcases List.mem_append.mp hm with hm2 | hm2
      · have hall : ∀ x ∈ outMarker, isLineBreak x = false := by decide
        rw [hall c hm2] at hbr
        exact Bool.noConfusion hbr
      · rcases List.mem_cons.mp hm2 with hm3 | hm3
        · exact hm3
        · exact (nlOnly_iff X).mp h8 c hm3 hbr
    · rcases List.mem_cons.mp hm with hm3 | hm3
      · exact hm3
      · have hall : ∀ x ∈ endoutMarker, isLineBreak x = false := by decide
        rw [hall c hm3] at hbr
        exact Bool.noConfusion hbr
  have hscons : s = '<' :: ("<<OUT>>>".toList ++ '\n' :: X ++ '\n' :: endoutMarker) := by
    rw [hsdef, show outMarker = '<' :: "<<OUT>>>".toList from by decide]
    rfl
  have hsdecomp : s = (outMarker ++ '\n' :: X ++ ['\n']) ++ endoutMarker := by
    rw [hsdef]
    simp [List.append_assoc]
  have hlastS : s.getLast? = some '>' := by
    rw [hsdecomp, List.getLast?_append, show endoutMarker.getLast? = some '>' from by decide]
    rfl
  have hheadS : s.head? = some '<' := by
    rw [hscons]
    rfl
  have hstrip : pyStrip s = s :=
    pyStrip_eq_self_of_ends s '<' '>' hheadS (by decide) hlastS (by decide)
  have hsne : s.isEmpty = false := by
    rw [hscons]
    rfl
  -- no fences on s
  have hfpre : fenceStr.isPrefixOf s = false := by
    rw [← Bool.not_eq_true, List.isPrefixOf_iff_prefix]
    intro hcon
    rw [hscons, show fenceStr = '`' :: "``".toList from by decide] at hcon
    rw [List.cons_prefix_cons] at hcon
    exact absurd hcon.1 (by decide)
  have hfsuf : fenceStr.isSuffixOf s = false := by
    rw [← Bool.not_eq_true, List.isSuffixOf_iff_suffix]
    intro hcon
    rw [hsdecomp] at hcon
    have hle : fenceStr.length ≤ endoutMarker.length := by decide
    have := (suffix_append_iff_of_le fenceStr _ endoutMarker hle).mp hcon
    exact absurd (List.isSuffixOf_iff_suffix.mpr this) (by decide)
  have hfence : stripCodeFences s = s := stripCodeFences_id s hfpre hfsuf
  -- strip-prefix-lines is the identity on s
  have hsplitS : splitLines s = outMarker :: splitOnNl (X ++ '\n' :: endoutMarker) := by
    rw [splitLines_eq_nl s hnlS]
    rw [splitLinesNl_of_last_not_nl s (by rw [hlastS]; decide)
      (by intro hcon; rw [hcon] at hheadS; simp at hheadS)]
    rw [hsdef, show outMarker ++ '\n' :: X ++ '\n' :: endoutMarker =
      outMarker ++ '\n' :: (X ++ '\n' :: endoutMarker) from by simp]
    exact splitOnNl_append_nl outMarker (by decide) _
  have hpre : stripPrefixLines s = s := by
    unfold stripPrefixLines
    rw [hsplitS]
    rw [show dropPreLines (outMarker :: splitOnNl (X ++ '\n' :: endoutMarker)) =
        outMarker :: splitOnNl (X ++ '\n' :: endoutMarker) from by
      unfold dropPreLines
      rw [show matchPre (pyStrip outMarker) = false from by decide]
      simp]
    rw [← hsplitS, splitLines_eq_nl s hnlS,
      splitLinesNl_of_last_not_nl s (by rw [hlastS]; decide)
      (by intro hcon; rw [hcon] at hheadS; simp at hheadS)]
    rw [joinNl_splitOnNl, hstrip]
  -- the echo-extraction condition is off
  have hoccTEXT : occurs textMarker s = false := by
    rw [hsdef, show outMarker ++ '\n' :: X ++ '\n' :: endoutMarker =
      outMarker ++ '\n' :: (X ++ '\n' :: endoutMarker) from by simp]
    exact occurs_false_of_decomp textMarker '\n' (by decide) outMarker _
      (by decide)
      (occurs_false_of_decomp textMarker '\n' (by decide) X endoutMarker h1 (by decide))
  have hechoCond : (occurs textMarker s && occurs endMarker s) = false := by
    rw [hoccTEXT]
    rfl
  -- the answer-extraction stage fires at the leading marker
  have hoccOUT : occurs outMarker s = true := by
    rw [occurs_infix_iff, hsdef]
    exact (List.prefix_append _ _).isInfix
  have hrfind : rfindIdx outMarker s = some 0 := by
    rw [hscons]
    apply rfindIdx_zero outMarker (by decide)
    · rw [List.isPrefixOf_iff_prefix, ← hscons, hsdef]
      exact List.prefix_append _ _
    · rw [show ("<<OUT>>>".toList ++ '\n' :: X ++ '\n' :: endoutMarker : Str) =
        "<<OUT>>>".toList ++ '\n' :: (X ++ '\n' :: endoutMarker) from by simp]
      exact occurs_false_of_decomp outMarker '\n' (by decide) _ _ (by decide)
        (occurs_false_of_decomp outMarker '\n' (by decide) X endoutMarker h3 (by decide))
  have hrsplit : rsplitTail s outMarker = '\n' :: X ++ '\n' :: endoutMarker := by
    unfold rsplitTail
    rw [hrfind]
    show List.drop (0 + outMarker.length) s = '\n' :: X ++ '\n' :: endoutMarker
    rw [show (0 + outMarker.length) = outMarker.length from by simp, hsdef]
    exact List.drop_left _ _
  -- the stripped tail after the answer marker
  have htail : pyRstrip ('\n' :: X ++ '\n' :: endoutMarker) =
      '\n' :: X ++ '\n' :: endoutMarker := by
    apply pyRstrip_eq_self_of_last _ '>'
    · rw [show ('\n' :: X ++ '\n' :: endoutMarker : Str) =
        ('\n' :: X ++ ['\n']) ++ endoutMarker from by simp [List.append_assoc]]
      rw [List.getLast?_append, show endoutMarker.getLast? = some '>' from by decide]
      rfl
    · decide
  by_cases hY : pyLstrip X = []
  · -- the fragment is all whitespace: the tail strips to the end marker alone
    have hT : pyStrip ('\n' :: X ++ '\n' :: endoutMarker) = endoutMarker := by
      unfold pyStrip
      rw [htail]
      unfold pyLstrip
      rw [List.cons_append]
      rw [List.dropWhile_cons_of_pos (show isWS '\n' = true from by decide)]
      rw [List.dropWhile_append]
      rw [show (List.dropWhile isWS X).isEmpty = true from by
        rw [List.isEmpty_iff]; exact hY]
      rw [if_pos rfl]
      rw [List.dropWhile_cons_of_pos (show isWS '\n' = true from by decide)]
      rw [show endoutMarker.dropWhile isWS = endoutMarker from by decide]
    have hXstrip : pyStrip X = [] := by
      rw [show pyStrip X = pyRstrip (pyLstrip X) from (rstrip_lstrip_comm X).symm, hY]
      rfl
    unfold cleanOutput
    dsimp only
    rw [hstrip, hsne]
    simp only [Bool.false_eq_true, if_false]
    rw [hfence, hstrip, hpre, hechoCond]
    simp only [Bool.false_eq_true, if_false]
    rw [hoccOUT]
    simp only [if_true]
    rw [hrsplit, hT]
    rw [show endoutMarker.isEmpty = false from by decide]
    simp only [Bool.false_eq_true, if_false]
    rw [show removeAll textMarker endoutMarker = endoutMarker from by decide,
      show removeAll endMarker endoutMarker = endoutMarker from by decide,
      show removeAll outMarker endoutMarker = endoutMarker from by decide,
      show removeAll endoutMarker endoutMarker = [] from by decide,
      show stripPrefixLines ([] : Str) = [] from by decide,
      show stripCodeFences ([] : Str) = [] from by decide,
      hXstrip]
    rfl
  · -- the fragment has content: the tail strips to lstrip X ++ newline ++ marker
    have hYne : (pyLstrip X).isEmpty = false := by
      cases hpl : pyLstrip X with
      | nil => exact absurd hpl hY
      | cons a t => rfl
    have hT : pyStrip ('\n' :: X ++ '\n' :: endoutMarker) =
        pyLstrip X ++ '\n' :: endoutMarker := by
      unfold pyStrip
      rw [htail]
      unfold pyLstrip
      rw [List.cons_append]
      rw [List.dropWhile_cons_of_pos (show isWS '\n' = true from by decide)]
      rw [List.dropWhile_append]
      rw [show (List.dropWhile isWS X).isEmpty = false from hYne]
      simp only [Bool.false_eq_true, if_false]
    have hTne : (pyLstrip X ++ '\n' :: endoutMarker).isEmpty = false := by
      simp
    have hsufY : pyLstrip X <:+: X := (List.dropWhile_suffix isWS).isInfix
    have hY1 : occurs textMarker (pyLstrip X) = false := occurs_false_mono _ _ _ hsufY h1
    have hY2 : occurs endMarker (pyLstrip X) = false := occurs_false_mono _ _ _ hsufY h2
    have hY3 : occurs outMarker (pyLstrip X) = false := occurs_false_mono _ _ _ hsufY h3
    have hY4 : occurs endoutMarker (pyLstrip X) = false := occurs_false_mono _ _ _ hsufY h4
    have hs1 : removeAll textMarker (pyLstrip X ++ '\n' :: endoutMarker) =
        pyLstrip X ++ '\n' :: endoutMarker :=
      not_occurs_removeAll _ _
        (occurs_false_of_decomp textMarker '\n' (by decide) _ _ hY1 (by decide))
    have hs2 : removeAll endMarker (pyLstrip X ++ '\n' :: endoutMarker) =
        pyLstrip X ++ '\n' :: endoutMarker :=
      not_occurs_removeAll _ _
        (occurs_false_of_decomp endMarker '\n' (by decide) _ _ hY2 (by decide))
    have hs3 : removeAll outMarker (pyLstrip X ++ '\n' :: endoutMarker) =
        pyLstrip X ++ '\n' :: endoutMarker :=
      not_occurs_removeAll _ _
        (occurs_false_of_decomp outMarker '\n' (by decide) _ _ hY3 (by decide))
    have hs4 : removeAll endoutMarker (pyLstrip X ++ '\n' :: endoutMarker) =
        pyLstrip X ++ ['\n'] := by
      rw [removeAll_append_safe endoutMarker (pyLstrip X) '\n' endoutMarker
        (by decide) hY4]
      rw [show removeAll endoutMarker ('\n' :: endoutMarker) = ['\n'] from by decide]
    have hnlLX : nlOnly (pyLstrip X ++ ['\n']) = true := by
      rw [nlOnly_iff]
      intro c hc hbr
      rcases List.mem_append.mp hc with hm | hm
      · exact (nlOnly_iff X).mp h8 c ((List.dropWhile_suffix isWS).subset hm) hbr
      · simpa using hm
    have hspl : stripPrefixLines (pyLstrip X ++ ['\n']) = pyStrip X := by
      unfold stripPrefixLines
      rw [show splitLines (pyLstrip X ++ ['\n']) = splitOnNl (pyLstrip X) from by
        rw [splitLines_eq_nl _ hnlLX]
        unfold splitLinesNl
        dsimp only
        rw [splitOnNl_concat_nl, List.getLast?_concat, if_pos rfl, List.dropLast_concat]]
      rw [h5, joinNl_splitOnNl]
      exact pyStrip_lstrip X
    unfold cleanOutput
    dsimp only
    rw [hstrip, hsne]
    simp only [Bool.false_eq_true, if_false]
    rw [hfence, hstrip, hpre, hechoCond]
    simp only [Bool.false_eq_true, if_false]
    rw [hoccOUT]
    simp only [if_true]
    rw [hrsplit, hT, hTne]
    simp only [Bool.false_eq_true, if_false]
    rw [hs1, hs2, hs3, hs4, hspl]
    rw [stripCodeFences_id _ h6 h7, pyStrip_idem]

/-- Claim C2 witness. -/
theorem claimC2_wrapped_extraction_witness :
    occurs textMarker "hello  world".toList = false ∧
    occurs endMarker "hello  world".toList = false ∧
    occurs outMarker "hello  world".toList = false ∧
    occurs endoutMarker "hello  world".toList = false ∧
    dropPreLines (splitOnNl (pyLstrip "hello  world".toList)) =
      splitOnNl (pyLstrip "hello  world".toList) ∧
    fenceStr.isPrefixOf (pyStrip "hello  world".toList) = false ∧
    fenceStr.isSuffixOf (pyStrip "hello  world".toList) = false ∧
    nlOnly "hello  world".toList = true ∧
    cleanOutput (outMarker ++ '\n' :: "hello  world".toList ++ '\n' :: endoutMarker) =
      pyStrip "hello  world".toList :=
  ⟨by decide, by decide, by decide, by decide, by decide, by decide, by decide, by decide,
    claimC2_wrapped_extraction "hello  world".toList (by decide) (by decide) (by decide)
      (by decide) (by decide) (by decide) (by decide) (by decide)⟩

/-! ## Table-spacing fixed points via the adjacency relation (towards claim C1) -/

theorem relLine_nil_right (x : Str) : relLine x [] := by
  constructor
  · intro h
    simp [isTableLine, pyLstrip, List.isPrefixOf] at h
  · intro _
    rfl

theorem relLine_nil_left (y : Str) : relLine [] y := by
  constructor
  · intro _
    rfl
  · intro h
    simp [isTableLine, pyLstrip, List.isPrefixOf] at h

theorem relLine_tab_tab (a b : Str) (ha : isTableLine a = true) (hb : isTableLine b = true) :
    relLine a b := by
  constructor
  · intro h
    rw [ha] at h
    simp at h
  · intro h
    rw [hb] at h
    simp at h

theorem chain_of_run (run : List Str) (hall : ∀ x ∈ run, isTableLine x = true) :
    List.Chain' relLine run := by
  induction run with
  | nil => simp
  | cons a l ih =>
    rw [List.chain'_cons']
    refine ⟨?_, ih (fun x hx => hall x (List.mem_cons_of_mem a hx))⟩
    intro y hy
    have hyl : y ∈ l := List.mem_of_mem_head? hy
    exact relLine_tab_tab a y (hall a (by simp)) (hall y (List.mem_cons_of_mem a hyl))

theorem specTS_head (p : Bool) (l : Str) (ls : List Str) :
    (specTableSpacing p (l :: ls)).head? =
      some (if isTableLine l && p then [] else l) := by
  by_cases ht : isTableLine l
  · rw [specTS_cons_tab p l ls ht]
    by_cases hp : p
    · simp [ht, hp]
    · simp [ht, hp]
  · have ht' : isTableLine l = false := by simpa using ht
    rw [specTS_cons_nontab p l ls ht']
    simp [ht']

theorem specTS_chain : ∀ (n : Nat) (p : Bool) (L : List Str), L.length ≤ n →
    List.Chain' relLine (specTableSpacing p L) := by
  intro n
  induction n with
  | zero =>
    intro p L h
    have : L = [] := by
      cases L with
      | nil => rfl
      | cons l ls => simp at h
    subst this
    simp [specTS_nil]
  | succ n ih =>
    intro p L h
    cases L with
    | nil => simp [specTS_nil]
    | cons l ls =>
      by_cases ht : isTableLine l
      · rw [specTS_cons_tab p l ls ht]
        have hrun : ∀ x ∈ l :: ls.takeWhile isTableLine, isTableLine x = true := by
          intro x hx
          rcases List.mem_cons.mp hx with h1 | h1
          · rw [h1]; exact ht
          · exact List.mem_takeWhile_imp h1
        have hrest : (ls.dropWhile isTableLine).length ≤ n := by
          have := dropWhile_length_le isTableLine ls
          simp only [List.length_cons] at h
          omega
        have hrec := ih (match (ls.dropWhile isTableLine).head? with
           | some r => (pyStrip r).isEmpty
           | none => true) (ls.dropWhile isTableLine) hrest
        have hbr : List.Chain' relLine
            ((if p then [([] : Str)] else []) ++ (l :: ls.takeWhile isTableLine)) := by
          rw [List.chain'_append]
          refine ⟨?_, chain_of_run _ hrun, ?_⟩
          · by_cases hp : p <;> simp [hp]
          · intro x hx y hy
            by_cases hp : p
            · rw [hp] at hx
              simp at hx
              rw [hx]
              exact relLine_nil_left y
            · have hp' : p = false := by simpa using hp
              rw [hp'] at hx
              simp at hx
        have hbrlast : ((if p then [([] : Str)] else []) ++
            (l :: ls.takeWhile isTableLine)).getLast? =
            (l :: ls.takeWhile isTableLine).getLast? :=
          List.getLast?_append_of_ne_nil _ (by simp)
        rw [List.chain'_append]
        refine ⟨?_, hrec, ?_⟩
        · rw [List.chain'_append]
          refine ⟨hbr, ?_, ?_⟩
          · cases hh : (ls.dropWhile isTableLine).head? with
            | none => simp
            | some r => by_cases hr : (pyStrip r).isEmpty <;> simp [hr]
          · intro x hx y hy
            cases hh : (ls.dropWhile isTableLine).head? with
            | none =>
              rw [hh] at hy
              simp at hy
            | some r =>
              by_cases hr : (pyStrip r).isEmpty
              · rw [hh] at hy
                simp [hr] at hy
              · rw [hh] at hy
                simp [hr] at hy
                rw [hy]
                exact relLine_nil_right x
        · -- junction into the recursive part
          intro x hx y hy
          cases hrest2 : ls.dropWhile isTableLine with
          | nil =>
            rw [hrest2] at hy
            simp [specTS_nil] at hy
          | cons r rs =>
            have hh : (ls.dropWhile isTableLine).head? = some r := by rw [hrest2]; rfl
            have hrnt : isTableLine r = false := head_dropWhile_not _ _ _ _ hrest2
            by_cases hr : (pyStrip r).isEmpty
            · -- no blank inserted after the run; the next line is blank
              rw [hh] at hx
              simp only [hr, if_true, List.append_nil] at hx
              rw [hbrlast] at hx
              have hxtab : isTableLine x = true := by
                apply hrun
                rcases List.mem_getLast?_eq_getLast hx with ⟨hne, hg⟩
                rw [hg]
                exact List.getLast_mem hne
              rw [hh, hrest2] at hy
              simp only [hr] at hy
              rw [specTS_head] at hy
              simp only [Option.mem_def, Option.some_inj] at hy
              rw [hrnt] at hy
              simp at hy
              rw [← hy]
              constructor
              · intro hcon
                rw [hxtab] at hcon
                simp at hcon
              · intro _
                unfold blankLine
                simpa using hr
            · -- a blank line was inserted after the run
              rw [hh] at hx
              have hr' : (pyStrip r).isEmpty = false := by simpa using hr
              simp only [hr', Bool.false_eq_true, if_false] at hx
              rw [List.getLast?_append_of_ne_nil _ (by simp)] at hx
              simp at hx
              rw [hx]
              exact relLine_nil_left y
      · have ht' : isTableLine l = false := by simpa using ht
        rw [specTS_cons_nontab p l ls ht']
        rw [List.chain'_cons']
        have hls : ls.length ≤ n := by
          simp only [List.length_cons] at h
          omega
        refine ⟨?_, ih _ ls hls⟩
        intro y hy
        cases ls with
        | nil => simp [specTS_nil] at hy
        | cons l2 ls2 =>
          rw [specTS_head] at hy
          simp only [Option.mem_def, Option.some_inj] at hy
          by_cases h2 : isTableLine l2 && !(pyStrip l).isEmpty
          · rw [h2] at hy
            simp at hy
            rw [hy]
            exact relLine_nil_right l
          · have h2' : (isTableLine l2 && !(pyStrip l).isEmpty) = false := by simpa using h2
            rw [h2'] at hy
            simp at hy
            rw [← hy]
            constructor
            · intro hcon
              rw [Bool.and_eq_false_iff] at h2'
              rcases h2' with h3 | h3
              · rw [hcon.2] at h3
                simp at h3
              · unfold blankLine
                simpa using h3
            · intro hcon
              rw [ht'] at hcon
              simp at hcon

theorem specTS_length_ge : ∀ (n : Nat) (p : Bool) (L : List Str), L.length ≤ n →
    L.length ≤ (specTableSpacing p L).length := by
  intro n
  induction n with
  | zero =>
    intro p L h
    have : L = [] := by
      cases L with
      | nil => rfl
      | cons l ls => simp at h
    subst this
    simp
  | succ n ih =>
    intro p L h
    cases L with
    | nil => simp
    | cons l ls =>
      by_cases ht : isTableLine l
      · rw [specTS_cons_tab p l ls ht]
        have hrest : (ls.dropWhile isTableLine).length ≤ n := by
          have := dropWhile_length_le isTableLine ls
          simp only [List.length_cons] at h
          omega
        have hrec := ih (match (ls.dropWhile isTableLine).head? with
           | some r => (pyStrip r).isEmpty
           | none => true) (ls.dropWhile isTableLine) hrest
        have hsplit : (l :: ls).length =
            (l :: ls.takeWhile isTableLine).length + (ls.dropWhile isTableLine).length := by
          have := List.takeWhile_append_dropWhile isTableLine ls
          have hlen := congrArg List.length this
          simp only [List.length_append] at hlen
          simp only [List.length_cons]
          omega
        simp only [List.length_append]
        simp only [List.length_cons] at hsplit ⊢
        omega
      · have ht' : isTableLine l = false := by simpa using ht
        rw [specTS_cons_nontab p l ls ht']
        have hls : ls.length ≤ n := by
          simp only [List.length_cons] at h
          omega
        have := ih (!(pyStrip l).isEmpty) ls hls
        simp only [List.length_cons]
        omega

theorem specTS_fixed_of_chain : ∀ (n : Nat) (p : Bool) (L : List Str), L.length ≤ n →
    (p = true → ∀ x ∈ L.head?, isTableLine x = false) →
    List.Chain' relLine L →
    specTableSpacing p L = L := by
  intro n
  induction n with
  | zero =>
    intro p L h _ _
    have : L = [] := by
      cases L with
      | nil => rfl
      | cons l ls => simp at h
    subst this
    simp [specTS_nil]
  | succ n ih =>
    intro p L h hhead hchain
    cases L with
    | nil => simp [specTS_nil]
    | cons l ls =>
      by_cases ht : isTableLine l
      · -- head is a table line, so p must be false
        have hp : p = false := by
          cases p with
          | false => rfl
          | true =>
            have := hhead rfl l (by simp)
            rw [ht] at this
            simp at this
        subst hp
        rw [specTS_cons_tab false l ls ht]
        simp only [Bool.false_eq_true, if_false, List.nil_append]
        have hsplit : l :: ls = (l :: ls.takeWhile isTableLine) ++ ls.dropWhile isTableLine := by
          have := List.takeWhile_append_dropWhile isTableLine ls
          rw [show (l :: ls.takeWhile isTableLine) ++ ls.dropWhile isTableLine =
            l :: (ls.takeWhile isTableLine ++ ls.dropWhile isTableLine) from rfl, this]
        have hrun : ∀ x ∈ l :: ls.takeWhile isTableLine, isTableLine x = true := by
          intro x hx
          rcases List.mem_cons.mp hx with h1 | h1
          · rw [h1]; exact ht
          · exact List.mem_takeWhile_imp h1
        have hrest : (ls.dropWhile isTableLine).length ≤ n := by
          have := dropWhile_length_le isTableLine ls
          simp only [List.length_cons] at h
          omega
        cases hh : (ls.dropWhile isTableLine).head? with
        | none =>
          have hrest2 : ls.dropWhile isTableLine = [] := by
            cases hq : ls.dropWhile isTableLine with
            | nil => rfl
            | cons a b => rw [hq] at hh; simp at hh
          simp only [hh]
          rw [hrest2, specTS_nil]
          simp only [List.append_nil]
          conv_rhs => rw [hsplit, hrest2]
          simp
        | some r =>
          obtain ⟨rs, hrest2⟩ : ∃ rs, ls.dropWhile isTableLine = r :: rs := by
            cases hq : ls.dropWhile isTableLine with
            | nil => rw [hq] at hh; simp at hh
            | cons a b =>
              rw [hq] at hh
              simp at hh
              exact ⟨b, by rw [hh]⟩
          have hrnt : isTableLine r = false := head_dropWhile_not _ _ _ _ hrest2
          -- the line after the run must be blank, by the chain condition
          have hjunction : relLine ((l :: ls.takeWhile isTableLine).getLast (by simp)) r := by
            rw [hsplit, hrest2] at hchain
            rw [List.chain'_append] at hchain
            apply hchain.2.2
            · rw [List.getLast?_eq_getLast _ (by simp)]
              rfl
            · rfl
          have hblank : (pyStrip r).isEmpty = true := by
            have hgtab : isTableLine ((l :: ls.takeWhile isTableLine).getLast (by simp)) = true :=
              hrun _ (List.getLast_mem _)
            have := hjunction.2 ⟨hgtab, hrnt⟩
            unfold blankLine at this
            simpa using this
          simp only [hh, hblank]
          simp only [if_true, List.append_nil]
          have hchain2 : List.Chain' relLine (ls.dropWhile isTableLine) := by
            rw [hsplit, List.chain'_append] at hchain
            exact hchain.2.1
          rw [ih _ (ls.dropWhile isTableLine) hrest
            (fun _ x hx => by
              rw [hrest2] at hx
              simp at hx
              rw [hx] at hrnt
              exact hrnt)
            hchain2]
          conv_rhs => rw [hsplit]
      · have ht' : isTableLine l = false := by simpa using ht
        rw [specTS_cons_nontab p l ls ht']
        have hls : ls.length ≤ n := by
          simp only [List.length_cons] at h
          omega
        rw [ih (!(pyStrip l).isEmpty) ls hls ?_ (List.Chain'.tail hchain)]
        intro hnb x hx
        cases ls with
        | nil => simp at hx
        | cons l2 ls2 =>
          simp at hx
          by_contra hcon
          have hcon' : isTableLine x = true := by simpa using hcon
          rw [← hx] at hcon'
          have hrel : relLine l l2 := (List.chain'_cons.mp hchain).1
          have := hrel.1 ⟨ht', hcon'⟩
          unfold blankLine at this
          rw [List.isEmpty_iff] at this
          rw [this] at hnb
          simp at hnb

/-! ## Right-stripping and trailing-blank trimming of line lists -/

theorem rstrip_decomp (s : Str) :
    ∃ w, s = pyRstrip s ++ w ∧ ∀ c ∈ w, isWS c = true := by
  refine ⟨(s.reverse.takeWhile isWS).reverse, ?_, ?_⟩
  · have h := List.takeWhile_append_dropWhile isWS s.reverse
    calc s = s.reverse.reverse := (List.reverse_reverse s).symm
      _ = (s.reverse.takeWhile isWS ++ s.reverse.dropWhile isWS).reverse := by rw [h]
      _ = (s.reverse.dropWhile isWS).reverse ++ (s.reverse.takeWhile isWS).reverse := by
          rw [List.reverse_append]
      _ = pyRstrip s ++ (s.reverse.takeWhile isWS).reverse := rfl
  · intro c hc
    exact List.mem_takeWhile_imp (List.mem_reverse.mp hc)

theorem isTableLine_rstrip (x : Str) : isTableLine (pyRstrip x) = isTableLine x := by
  unfold isTableLine
  rw [show pyLstrip (pyRstrip x) = pyRstrip (pyLstrip x) from (rstrip_lstrip_comm x).symm]
  obtain ⟨w, hw, hws⟩ := rstrip_decomp (pyLstrip x)
  have hcount : (pyLstrip x).count '|' = (pyRstrip (pyLstrip x)).count '|' := by
    conv_lhs => rw [hw]
    rw [List.count_append]
    have hzero : w.count '|' = 0 := by
      rw [List.count_eq_zero]
      intro hm
      have := hws '|' hm
      simp [isWS] at this
    omega
  have hpref : (['|'] : Str).isPrefixOf (pyRstrip (pyLstrip x)) =
      (['|'] : Str).isPrefixOf (pyLstrip x) := by
    cases hz : pyRstrip (pyLstrip x) with
    | nil =>
      rw [hz] at hw
      rw [List.nil_append] at hw
      cases hy : pyLstrip x with
      | nil => rfl
      | cons c cs =>
        have hc : isWS c = true := by
          apply hws
          rw [← hw, hy]
          simp
        have : ('|' == c) = false := by
          cases hcc : ('|' == c) with
          | false => rfl
          | true =>
            have : '|' = c := by simpa using hcc
            rw [← this] at hc
            simp [isWS] at hc
        simp [List.isPrefixOf, this]
    | cons d t =>
      rw [hz] at hw
      rw [hw]
      simp [List.isPrefixOf]
  dsimp only
  rw [hcount, hpref]

theorem blankLine_rstrip (x : Str) : blankLine (pyRstrip x) = blankLine x := by
  unfold blankLine
  rw [pyStrip_rstrip]

theorem relLine_rstrip_right (a x : Str) (h : relLine a x) : relLine a (pyRstrip x) := by
  constructor
  · intro hc
    rw [isTableLine_rstrip] at hc
    exact h.1 hc
  · intro hc
    rw [isTableLine_rstrip] at hc
    rw [blankLine_rstrip]
    exact h.2 hc

theorem trimT_shape (L : List Str) :
    (L.reverse.dropWhile blankLine = [] ∧ trimT L = []) ∨
    ∃ x rest, L.reverse.dropWhile blankLine = x :: rest ∧ blankLine x = false ∧
      trimT L = rest.reverse ++ [pyRstrip x] ∧
      L = (rest.reverse ++ [x]) ++ (L.reverse.takeWhile blankLine).reverse ∧
      ∀ b ∈ (L.reverse.takeWhile blankLine).reverse, blankLine b = true := by
  cases hd : L.reverse.dropWhile blankLine with
  | nil =>
    left
    refine ⟨rfl, ?_⟩
    unfold trimT
    rw [hd]
  | cons x rest =>
    right
    refine ⟨x, rest, rfl, head_dropWhile_not _ _ _ _ hd, ?_, ?_, ?_⟩
    · unfold trimT
      rw [hd]
      show (pyRstrip x :: rest).reverse = rest.reverse ++ [pyRstrip x]
      rw [List.reverse_cons]
    · have h := List.takeWhile_append_dropWhile blankLine L.reverse
      calc L = L.reverse.reverse := (List.reverse_reverse L).symm
        _ = (L.reverse.takeWhile blankLine ++ L.reverse.dropWhile blankLine).reverse := by
            rw [h]
        _ = (L.reverse.dropWhile blankLine).reverse ++
              (L.reverse.takeWhile blankLine).reverse := by rw [List.reverse_append]
        _ = (x :: rest).reverse ++ (L.reverse.takeWhile blankLine).reverse := by rw [hd]
        _ = (rest.reverse ++ [x]) ++ (L.reverse.takeWhile blankLine).reverse := by
            rw [List.reverse_cons]
    · intro b hb
      exact List.mem_takeWhile_imp (List.mem_reverse.mp hb)

theorem trimT_idem (L : List Str) : trimT (trimT L) = trimT L := by
  rcases trimT_shape L with ⟨-, h2⟩ | ⟨x, rest, -, hb, ht, -, -⟩
  · rw [h2]
    rfl
  · rw [ht]
    unfold trimT
    have hrev : (rest.reverse ++ [pyRstrip x]).reverse = pyRstrip x :: rest := by
      rw [List.reverse_append, List.reverse_reverse]
      rfl
    rw [hrev]
    rw [List.dropWhile_cons_of_neg (by rw [blankLine_rstrip]; simp [hb])]
    show (pyRstrip (pyRstrip x) :: rest).reverse = rest.reverse ++ [pyRstrip x]
    rw [pyRstrip_idem, List.reverse_cons]

theorem chain_trimT (L : List Str) (h : List.Chain' relLine L) :
    List.Chain' relLine (trimT L) := by
  rcases trimT_shape L with ⟨-, h2⟩ | ⟨x, rest, -, hb, ht, hL, -⟩
  · rw [h2]
    simp
  · rw [ht]
    rw [hL, List.chain'_append] at h
    have hAx := h.1
    rw [List.chain'_append] at hAx ⊢
    refine ⟨hAx.1, by simp, ?_⟩
    intro a ha y hy
    simp at hy
    rw [← hy]
    exact relLine_rstrip_right a x (hAx.2.2 a ha x (by rfl))

/-! ## The option-spacing pass: state decomposition and fixed points -/

theorem isEmpty_false_of_ne (l : List α) (h : l ≠ []) : ¬ l.isEmpty = true := by
  cases l with
  | nil => exact absurd rfl h
  | cons a t => intro hc; exact Bool.noConfusion hc

theorem getLast?_append_right (u v : List α) (h : v ≠ []) :
    (u ++ v).getLast? = v.getLast? := by
  induction u with
  | nil => rfl
  | cons a t ih =>
    rw [List.cons_append]
    rw [getLast?_cons_of_ne_nil a (t ++ v)
      (by intro hc; exact h (List.append_eq_nil.mp hc).2)]
    exact ih

theorem mem_of_takeWhile (p : α → Bool) (l : List α) (a : α)
    (h : a ∈ l.takeWhile p) : a ∈ l := by
  have hd := List.takeWhile_append_dropWhile p l
  rw [← hd]
  exact List.mem_append_left _ h

theorem mem_of_dropWhile (p : α → Bool) (l : List α) (a : α)
    (h : a ∈ l.dropWhile p) : a ∈ l := by
  have hd := List.takeWhile_append_dropWhile p l
  rw [← hd]
  exact List.mem_append_right _ h

theorem specOpt_cons (b p : Bool) (l : Str) (ls : List Str) :
    specOptionSpacing b p (l :: ls) =
      if isOptionLine l then
        (if !b && p then [([] : Str), l] else [l]) ++ specOptionSpacing true true ls
      else
        l :: specOptionSpacing (if (pyStrip l).isEmpty then b else false)
          (!(pyStrip l).isEmpty) ls := rfl

theorem optState_cons (b p : Bool) (l : Str) (ls : List Str) :
    optState b p (l :: ls) =
      if isOptionLine l then optState true true ls
      else optState (if (pyStrip l).isEmpty then b else false)
        (!(pyStrip l).isEmpty) ls := rfl

theorem dropWhile_append_of_ne_nil (p : α → Bool) (u v : List α)
    (h : u.dropWhile p ≠ []) : (u ++ v).dropWhile p = u.dropWhile p ++ v := by
  induction u with
  | nil => exact absurd rfl h
  | cons a t ih =>
    rw [List.cons_append]
    by_cases ha : p a = true
    · simp only [List.dropWhile_cons_of_pos ha] at h ⊢
      exact ih h
    · simp only [List.dropWhile_cons_of_neg ha]
      rw [List.cons_append]

theorem isOptionLine_append (u v : Str) (h : isOptionLine u = true) :
    isOptionLine (u ++ v) = true := by
  unfold isOptionLine at h ⊢
  cases hu : u.dropWhile isWS with
  | nil => rw [hu] at h; simp at h
  | cons c rest =>
    rw [hu] at h
    have hne : u.dropWhile isWS ≠ [] := by rw [hu]; simp
    have hd : (u ++ v).dropWhile isWS = c :: (rest ++ v) := by
      rw [dropWhile_append_of_ne_nil isWS u v hne, hu]
      rfl
    rw [hd]
    dsimp only at h ⊢
    by_cases hAH : ('A' ≤ c && c ≤ 'H') = true
    · rw [if_pos hAH] at h ⊢
      cases rest with
      | nil => simp at h
      | cons b r2 =>
        simp at h ⊢
        refine ⟨h.1, ?_⟩
        cases r2 with
        | nil => simp [headIsWS] at h
        | cons w0 r3 =>
          rw [List.cons_append]
          simpa [headIsWS] using h.2
    · rw [if_neg hAH] at h ⊢
      by_cases hD : c.isDigit = true
      · rw [if_pos hD] at h ⊢
        cases rest with
        | nil => simp [headIsWS] at h
        | cons d rest2 =>
          cases rest2 with
          | nil => simp [headIsWS] at h
          | cons b2 r2 =>
            cases r2 with
            | nil =>
              simp [headIsWS, isDotParen] at h ⊢
              exact Or.inr h
            | cons w0 r3 =>
              simp [headIsWS] at h ⊢
              exact h
      · rw [if_neg hD] at h
        simp at h

theorem specOpt_append (A B : List Str) (b p : Bool) :
    specOptionSpacing b p (A ++ B) =
      specOptionSpacing b p A ++
        specOptionSpacing (optState b p A).1 (optState b p A).2 B := by
  induction A generalizing b p with
  | nil => rfl
  | cons l ls ih =>
    rw [List.cons_append, specOpt_cons, specOpt_cons, optState_cons]
    by_cases hl : isOptionLine l = true
    · simp only [if_pos hl]
      rw [ih, List.append_assoc]
    · simp only [if_neg hl]
      rw [ih, List.cons_append]

theorem specOpt_length (L : List Str) : ∀ b p : Bool,
    L.length ≤ (specOptionSpacing b p L).length := by
  induction L with
  | nil => intro b p; exact Nat.le_refl 0
  | cons l ls ih =>
    intro b p
    rw [specOpt_cons]
    by_cases hl : isOptionLine l = true
    · rw [if_pos hl]
      have h1 : 1 ≤ (if !b && p then [([] : Str), l] else [l]).length := by
        by_cases hc : (!b && p) = true
        · rw [if_pos hc]; exact Nat.le_succ 1
        · rw [if_neg hc]; exact Nat.le_refl 1
      rw [List.length_append, List.length_cons]
      have h2 := ih true true
      omega
    · rw [if_neg hl]
      rw [List.length_cons, List.length_cons]
      exact Nat.succ_le_succ (ih _ _)

theorem specOpt_fixed_append (A B : List Str) (b p : Bool)
    (h : specOptionSpacing b p (A ++ B) = A ++ B) :
    specOptionSpacing b p A = A ∧
      specOptionSpacing (optState b p A).1 (optState b p A).2 B = B := by
  rw [specOpt_append] at h
  have hA := specOpt_length A b p
  have hB := specOpt_length B (optState b p A).1 (optState b p A).2
  have hlen : (specOptionSpacing b p A).length = A.length := by
    have hl := congrArg List.length h
    rw [List.length_append, List.length_append] at hl
    omega
  exact List.append_inj h hlen

theorem specOpt_single_rstrip (b p : Bool) (x : Str)
    (h : specOptionSpacing b p [x] = [x]) :
    specOptionSpacing b p [pyRstrip x] = [pyRstrip x] := by
  by_cases hx' : isOptionLine (pyRstrip x) = true
  · obtain ⟨w, hw, -⟩ := rstrip_decomp x
    have hx : isOptionLine x = true := by
      rw [hw]
      exact isOptionLine_append _ w hx'
    rw [specOpt_cons, if_pos hx] at h
    rw [specOpt_cons, if_pos hx']
    by_cases hc : (!b && p) = true
    · rw [if_pos hc] at h
      have hlen := congrArg List.length h
      simp [specOptionSpacing] at hlen
    · rw [if_neg hc]
      rfl
  · rw [specOpt_cons, if_neg hx']
    rfl

theorem specOpt_head (b p : Bool) (L : List Str) :
    ∀ y ∈ (specOptionSpacing b p L).head?, y = [] ∨ L.head? = some y := by
  cases L with
  | nil => intro y hy; simp [specOptionSpacing] at hy
  | cons l ls =>
    intro y hy
    rw [specOpt_cons] at hy
    by_cases hl : isOptionLine l = true
    · rw [if_pos hl] at hy
      by_cases hc : (!b && p) = true
      · rw [if_pos hc] at hy
        have hy' : y ∈ (([] : Str) :: l :: specOptionSpacing true true ls).head? := hy
        simp at hy'
        exact Or.inl hy'
      · rw [if_neg hc] at hy
        have hy' : y ∈ (l :: specOptionSpacing true true ls).head? := hy
        simp at hy'
        right
        rw [hy']
        rfl
    · rw [if_neg hl] at hy
      simp at hy
      right
      rw [hy]
      rfl

theorem chain_specOpt (L : List Str) : ∀ b p : Bool, List.Chain' relLine L →
    List.Chain' relLine (specOptionSpacing b p L) := by
  induction L with
  | nil => intro b p _; exact List.chain'_nil
  | cons l ls ih =>
    intro b p h
    rw [List.chain'_cons'] at h
    have key : ∀ b' p' : Bool,
        List.Chain' relLine (l :: specOptionSpacing b' p' ls) := by
      intro b' p'
      rw [List.chain'_cons']
      refine ⟨?_, ih b' p' h.2⟩
      intro y hy
      rcases specOpt_head b' p' ls y hy with h0 | h0
      · rw [h0]
        exact relLine_nil_right l
      · exact h.1 y h0
    rw [specOpt_cons]
    by_cases hl : isOptionLine l = true
    · rw [if_pos hl]
      by_cases hc : (!b && p) = true
      · rw [if_pos hc]
        show List.Chain' relLine (([] : Str) :: l :: specOptionSpacing true true ls)
        rw [List.chain'_cons']
        refine ⟨?_, key true true⟩
        intro y hy
        simp at hy
        exact relLine_nil_left y
      · rw [if_neg hc]
        show List.Chain' relLine (l :: specOptionSpacing true true ls)
        exact key true true
    · rw [if_neg hl]
      exact key _ _

theorem specOpt_mem (L : List Str) : ∀ (b p : Bool) (y : Str),
    y ∈ specOptionSpacing b p L → y = [] ∨ y ∈ L := by
  induction L with
  | nil => intro b p y hy; simp [specOptionSpacing] at hy
  | cons l ls ih =>
    intro b p y hy
    rw [specOpt_cons] at hy
    by_cases hl : isOptionLine l = true
    · rw [if_pos hl] at hy
      by_cases hc : (!b && p) = true
      · rw [if_pos hc] at hy
        have hy' : y ∈ ([] : Str) :: l :: specOptionSpacing true true ls := hy
        rcases List.mem_cons.mp hy' with h0 | h0
        · exact Or.inl h0
        rcases List.mem_cons.mp h0 with h1 | h1
        · exact Or.inr (by rw [h1]; exact List.mem_cons_self l ls)
        · rcases ih true true y h1 with h2 | h2
          · exact Or.inl h2
          · exact Or.inr (List.mem_cons_of_mem l h2)
      · rw [if_neg hc] at hy
        have hy' : y ∈ l :: specOptionSpacing true true ls := hy
        rcases List.mem_cons.mp hy' with h1 | h1
        · exact Or.inr (by rw [h1]; exact List.mem_cons_self l ls)
        · rcases ih true true y h1 with h2 | h2
          · exact Or.inl h2
          · exact Or.inr (List.mem_cons_of_mem l h2)
    · rw [if_neg hl] at hy
      rcases List.mem_cons.mp hy with h1 | h1
      · exact Or.inr (by rw [h1]; exact List.mem_cons_self l ls)
      · rcases ih _ _ y h1 with h2 | h2
        · exact Or.inl h2
        · exact Or.inr (List.mem_cons_of_mem l h2)

theorem specTS_mem : ∀ (n : Nat) (p : Bool) (L : List Str) (y : Str), L.length ≤ n →
    y ∈ specTableSpacing p L → y = [] ∨ y ∈ L := by
  intro n
  induction n with
  | zero =>
    intro p L y h hy
    cases L with
    | nil => rw [specTS_nil] at hy; simp at hy
    | cons l ls => simp at h
  | succ n ih =>
    intro p L y h hy
    cases L with
    | nil => rw [specTS_nil] at hy; simp at hy
    | cons l ls =>
      by_cases ht : isTableLine l = true
      · rw [specTS_cons_tab p l ls ht] at hy
        rcases List.mem_append.mp hy with h1 | hD
        · rcases List.mem_append.mp h1 with h2 | hC
          · rcases List.mem_append.mp h2 with hA | hB
            · left
              by_cases hp : p = true
              · rw [if_pos hp] at hA
                simpa using hA
              · rw [if_neg hp] at hA
                simp at hA
            · rcases List.mem_cons.mp hB with h3 | h3
              · exact Or.inr (by rw [h3]; exact List.mem_cons_self l ls)
              · exact Or.inr
                  (List.mem_cons_of_mem l (mem_of_takeWhile isTableLine ls y h3))
          · left
            cases hh : (ls.dropWhile isTableLine).head? with
            | none => rw [hh] at hC; simp at hC
            | some r =>
              rw [hh] at hC
              dsimp only at hC
              by_cases hb : (pyStrip r).isEmpty = true
              · rw [if_pos hb] at hC
                simp at hC
              · rw [if_neg hb] at hC
                simpa using hC
        · have hlen : (ls.dropWhile isTableLine).length ≤ n := by
            have h1 := dropWhile_length_le isTableLine ls
            simp at h
            omega
          rcases ih _ _ y hlen hD with h2 | h2
          · exact Or.inl h2
          · exact Or.inr
              (List.mem_cons_of_mem l (mem_of_dropWhile isTableLine ls y h2))
      · rw [specTS_cons_nontab p l ls (by simpa using ht)] at hy
        rcases List.mem_cons.mp hy with h1 | h1
        · exact Or.inr (by rw [h1]; exact List.mem_cons_self l ls)
        · have hlen : ls.length ≤ n := by simp at h; omega
          rcases ih _ ls y hlen h1 with h2 | h2
          · exact Or.inl h2
          · exact Or.inr (List.mem_cons_of_mem l h2)

theorem mem_pyRstrip (c : Char) (s : Str) (h : c ∈ pyRstrip s) : c ∈ s := by
  unfold pyRstrip at h
  rw [List.mem_reverse] at h
  have h2 := mem_of_dropWhile isWS s.reverse c h
  rwa [List.mem_reverse] at h2

theorem nlFree_trimT (L : List Str) (h : nlFreeL L) : nlFreeL (trimT L) := by
  rcases trimT_shape L with ⟨-, h2⟩ | ⟨x, rest, -, -, ht, hL, -⟩
  · rw [h2]
    intro l hl
    simp at hl
  · rw [ht]
    intro l hl
    rcases List.mem_append.mp hl with h1 | h1
    · exact h l (by rw [hL]; exact List.mem_append_left _ (List.mem_append_left _ h1))
    · simp at h1
      rw [h1]
      intro c hc
      have hx : x ∈ L := by
        rw [hL]
        exact List.mem_append_left _ (List.mem_append_right _ (List.mem_cons_self x []))
      exact h x hx c (mem_pyRstrip c x hc)

theorem splitNlAux_nlFree (s : Str) : ∀ cur, '\n' ∉ cur →
    ∀ l ∈ splitNlAux s cur, '\n' ∉ l := by
  induction s with
  | nil =>
    intro cur hcur l hl
    simp [splitNlAux] at hl
    rw [hl]
    intro hc
    exact hcur (List.mem_reverse.mp hc)
  | cons c cs ih =>
    intro cur hcur l hl
    rw [splitNlAux_cons] at hl
    by_cases hc : c = '\n'
    · rw [if_pos hc] at hl
      rcases List.mem_cons.mp hl with h1 | h1
      · rw [h1]
        intro hx
        exact hcur (List.mem_reverse.mp hx)
      · exact ih [] (by simp) l h1
    · rw [if_neg hc] at hl
      refine ih (c :: cur) ?_ l hl
      intro hx
      rcases List.mem_cons.mp hx with h1 | h1
      · exact hc h1.symm
      · exact hcur h1

theorem splitLinesF_break_free : ∀ (s cur : Str) (b : Bool),
    (∀ c ∈ cur, isLineBreak c = false) →
    ∀ l ∈ splitLinesF s cur b, ∀ c ∈ l, isLineBreak c = false := by
  intro s
  induction s with
  | nil =>
    intro cur b hcur l hl c hc
    rw [splitLinesF_nil] at hl
    cases hcu : cur with
    | nil =>
      rw [hcu] at hl
      simp at hl
    | cons a t =>
      rw [hcu] at hl
      rw [if_neg (by simp)] at hl
      rcases List.mem_cons.mp hl with h1 | h1
      · rw [h1] at hc
        rw [List.mem_reverse] at hc
        rw [← hcu] at hc
        exact hcur c hc
      · simp at h1
  | cons a cs ih =>
    intro cur b hcur l hl c hc
    rw [splitLinesF_cons] at hl
    by_cases hskip : (b && decide (a = '\n')) = true
    · rw [if_pos hskip] at hl
      exact ih cur false hcur l hl c hc
    · rw [if_neg hskip] at hl
      by_cases hbr : isLineBreak a = true
      · rw [if_pos hbr] at hl
        rcases List.mem_cons.mp hl with h3 | h3
        · rw [h3] at hc
          rw [List.mem_reverse] at hc
          exact hcur c hc
        · exact ih [] _ (by intro x hx; simp at hx) l h3 c hc
      · rw [if_neg hbr] at hl
        refine ih (a :: cur) false ?_ l hl c hc
        intro x hx
        rcases List.mem_cons.mp hx with h4 | h4
        · rw [h4]
          simpa using hbr
        · exact hcur x h4

theorem splitLines_nlFree (s : Str) : nlFreeL (splitLines s) := by
  intro l hl c hc
  exact splitLinesF_break_free s [] false (by intro x hx; simp at hx) l hl c hc

/-! ## Right-stripping the joined lines, at the line-list level -/

theorem joinNl_append_single (A : List Str) (x : Str) (h : A ≠ []) :
    joinNl (A ++ [x]) = joinNl A ++ '\n' :: x := by
  induction A with
  | nil => exact absurd rfl h
  | cons a t ih =>
    cases t with
    | nil => rfl
    | cons b u =>
      rw [List.cons_append]
      rw [joinNl_cons_of_ne_nil a ((b :: u) ++ [x]) (by simp)]
      rw [joinNl_cons_of_ne_nil a (b :: u) (by simp)]
      rw [ih (by simp)]
      rw [List.append_assoc, List.cons_append]

theorem dropWhile_append_all (p : α → Bool) (u v : List α)
    (h : ∀ c ∈ u, p c = true) : (u ++ v).dropWhile p = v.dropWhile p := by
  induction u with
  | nil => rfl
  | cons a t ih =>
    rw [List.cons_append, List.dropWhile_cons_of_pos (h a (List.mem_cons_self a t))]
    exact ih (fun c hc => h c (List.mem_cons_of_mem a hc))

theorem rstrip_append_ws (a w : Str) (h : ∀ c ∈ w, isWS c = true) :
    pyRstrip (a ++ w) = pyRstrip a := by
  unfold pyRstrip
  rw [List.reverse_append]
  rw [dropWhile_append_all isWS w.reverse a.reverse
    (fun c hc => h c (List.mem_reverse.mp hc))]

theorem pyRstrip_last_not_ws (s : Str) (h : pyRstrip s ≠ []) :
    ∃ d, (pyRstrip s).getLast? = some d ∧ isWS d = false := by
  unfold pyRstrip at h ⊢
  cases hd : s.reverse.dropWhile isWS with
  | nil => rw [hd] at h; simp at h
  | cons d t =>
    refine ⟨d, ?_, head_dropWhile_not isWS s.reverse d t hd⟩
    rw [List.reverse_cons, getLast?_append_right _ [d] (by simp)]
    rfl

theorem trimT_concat_blank (A : List Str) (x : Str) (h : blankLine x = true) :
    trimT (A ++ [x]) = trimT A := by
  unfold trimT
  rw [List.reverse_append, List.reverse_singleton, List.singleton_append,
    List.dropWhile_cons_of_pos h]

theorem rstrip_joinNl_eq_trimT : ∀ (L : List Str),
    pyRstrip (joinNl L) = joinNl (trimT L) := by
  intro L
  induction L using List.reverseRecOn with
  | nil => rfl
  | append_singleton A x ih =>
    by_cases hx : blankLine x = true
    · rw [trimT_concat_blank A x hx, ← ih]
      cases A with
      | nil =>
        rw [show joinNl ([] ++ [x]) = x from rfl,
          show pyRstrip (joinNl ([] : List Str)) = [] from rfl]
        exact (pyRstrip_eq_nil_iff x).mpr ((blank_iff_all_ws x).mp hx)
      | cons a t =>
        rw [joinNl_append_single (a :: t) x (by simp)]
        have hall : ∀ c ∈ ('\n' :: x), isWS c = true := by
          intro c hc
          rcases List.mem_cons.mp hc with h1 | h1
          · rw [h1]
            rfl
          · exact (blank_iff_all_ws x).mp hx c h1
        exact rstrip_append_ws (joinNl (a :: t)) ('\n' :: x) hall
    · have hx' : blankLine x = false := by simpa using hx
      have htr : trimT (A ++ [x]) = A ++ [pyRstrip x] := by
        unfold trimT
        rw [List.reverse_append, List.reverse_singleton, List.singleton_append,
          List.dropWhile_cons_of_neg (by simp [hx'])]
        show (pyRstrip x :: A.reverse).reverse = A ++ [pyRstrip x]
        rw [List.reverse_cons, List.reverse_reverse]
      rw [htr]
      obtain ⟨w, hw, hws⟩ := rstrip_decomp x
      have hne : pyRstrip x ≠ [] := by
        intro hcon
        rw [hcon, List.nil_append] at hw
        have hbx : blankLine x = true :=
          (blank_iff_all_ws x).mpr (by rw [hw]; exact hws)
        rw [hbx] at hx'
        exact Bool.noConfusion hx'
      cases A with
      | nil => rfl
      | cons a t =>
        rw [joinNl_append_single (a :: t) x (by simp),
          joinNl_append_single (a :: t) (pyRstrip x) (by simp)]
        conv_lhs => rw [hw]
        have hassoc : joinNl (a :: t) ++ '\n' :: (pyRstrip x ++ w)
            = (joinNl (a :: t) ++ '\n' :: pyRstrip x) ++ w := by
          rw [List.append_assoc, List.cons_append]
        rw [hassoc, rstrip_append_ws _ w hws]
        obtain ⟨d, hd, hdw⟩ := pyRstrip_last_not_ws x hne
        refine pyRstrip_eq_self_of_last _ d ?_ hdw
        rw [getLast?_append_right _ ('\n' :: pyRstrip x) (by simp),
          getLast?_cons_of_ne_nil '\n' (pyRstrip x) hne]
        exact hd

theorem splitNlAux_no_nl : ∀ (s : Str) (cur : Str), '\n' ∉ s →
    splitNlAux s cur = [cur.reverse ++ s] := by
  intro s
  induction s with
  | nil =>
    intro cur _
    simp [splitNlAux]
  | cons c cs ih =>
    intro cur h
    rw [splitNlAux_cons,
      if_neg (fun hc => h (by rw [← hc]; exact List.mem_cons_self c cs))]
    rw [ih (c :: cur) (fun hm => h (List.mem_cons_of_mem c hm))]
    congr 1
    simp

theorem splitOnNl_joinNl : ∀ (M : List Str), M ≠ [] → nlFreeL M →
    splitOnNl (joinNl M) = M := by
  intro M
  induction M with
  | nil => intro hM _; exact absurd rfl hM
  | cons m ms ih =>
    intro _ h
    cases ms with
    | nil =>
      rw [show joinNl [m] = m from rfl]
      unfold splitOnNl
      rw [splitNlAux_no_nl m []
        (break_free_not_nl_mem m (h m (List.mem_cons_self m [])))]
      rfl
    | cons b u =>
      rw [joinNl_cons_of_ne_nil m (b :: u) (by simp)]
      rw [splitOnNl_append_nl m
        (break_free_not_nl_mem m (h m (List.mem_cons_self m (b :: u))))
        (joinNl (b :: u))]
      congr 1
      exact ih (by simp) (fun l hl => h l (List.mem_cons_of_mem m hl))

theorem joinNl_nlOnly : ∀ (M : List Str), nlFreeL M → nlOnly (joinNl M) = true := by
  intro M
  induction M with
  | nil => intro _; rfl
  | cons m ms ih =>
    intro h
    cases ms with
    | nil =>
      rw [show joinNl [m] = m from rfl, nlOnly_iff]
      intro c hc hbr
      rw [h m (List.mem_cons_self m []) c hc] at hbr
      exact Bool.noConfusion hbr
    | cons b u =>
      rw [joinNl_cons_of_ne_nil m (b :: u) (by simp), nlOnly_iff]
      intro c hc hbr
      rcases List.mem_append.mp hc with h1 | h1
      · rw [h m (List.mem_cons_self m (b :: u)) c h1] at hbr
        exact Bool.noConfusion hbr
      · rcases List.mem_cons.mp h1 with h2 | h2
        · exact h2
        · exact (nlOnly_iff _).mp
            (ih (fun l hl => h l (List.mem_cons_of_mem m hl))) c h2 hbr

theorem splitLines_joinNl (M : List Str) (hM : M ≠ []) (h : nlFreeL M)
    (hlast : M.getLast? ≠ some []) : splitLines (joinNl M) = M := by
  rw [splitLines_eq_nl _ (joinNl_nlOnly M h)]
  unfold splitLinesNl
  dsimp only
  rw [splitOnNl_joinNl M hM h, if_neg hlast]

theorem specOpt_fixed_trimT (b p : Bool) (M : List Str)
    (h : specOptionSpacing b p M = M) :
    specOptionSpacing b p (trimT M) = trimT M := by
  rcases trimT_shape M with ⟨-, h2⟩ | ⟨x, rest, -, -, ht, hL, -⟩
  · rw [h2]
    rfl
  · rw [ht]
    rw [hL] at h
    obtain ⟨h1, -⟩ := specOpt_fixed_append (rest.reverse ++ [x]) _ b p h
    obtain ⟨h2, h3⟩ := specOpt_fixed_append rest.reverse [x] b p h1
    rw [specOpt_append, h2, specOpt_single_rstrip _ _ x h3]

theorem addTab_nil_of (t : Str) (h : splitLines t = []) : addTableSpacing t = t := by
  unfold addTableSpacing
  dsimp only
  rw [h]
  rfl

theorem addOpt_nil_of (t : Str) (h : splitLines t = []) : addOptionSpacing t = t := by
  unfold addOptionSpacing
  dsimp only
  rw [h]
  rfl

theorem addTab_eq (t : Str) (hne : splitLines t ≠ []) :
    addTableSpacing t = joinNl (trimT (specTableSpacing false (splitLines t))) := by
  unfold addTableSpacing
  dsimp only
  rw [if_neg (isEmpty_false_of_ne _ hne)]
  rw [tableGo_eq_spec (splitLines t).length (splitLines t) [] (le_refl _)]
  show pyRstrip (joinNl (specTableSpacing false (splitLines t))) = _
  exact rstrip_joinNl_eq_trimT _

theorem addOpt_eq (t : Str) (hne : splitLines t ≠ []) :
    addOptionSpacing t =
      joinNl (trimT (specOptionSpacing false false (splitLines t))) := by
  unfold addOptionSpacing
  dsimp only
  rw [if_neg (isEmpty_false_of_ne _ hne)]
  rw [optionGo_eq_spec]
  show pyRstrip (joinNl (specOptionSpacing false false (splitLines t))) = _
  exact rstrip_joinNl_eq_trimT _

theorem trimT_lines_roundtrip (Q : List Str) (hnl : nlFreeL Q) :
    trimT Q = [] ∨
      (trimT Q ≠ [] ∧ splitLines (joinNl (trimT Q)) = trimT Q) := by
  rcases trimT_shape Q with ⟨-, h2⟩ | ⟨x, rest, -, hb, ht, -, -⟩
  · exact Or.inl h2
  · right
    have hMne : trimT Q ≠ [] := by rw [ht]; simp
    have hrx : pyRstrip x ≠ [] := by
      intro hcon
      have hbx : blankLine (pyRstrip x) = true := by rw [hcon]; rfl
      rw [blankLine_rstrip] at hbx
      rw [hbx] at hb
      exact Bool.noConfusion hb
    have hlastM : (trimT Q).getLast? = some (pyRstrip x) := by
      rw [ht, getLast?_append_right rest.reverse [pyRstrip x] (by simp)]
      rfl
    refine ⟨hMne, splitLines_joinNl (trimT Q) hMne (nlFree_trimT Q hnl) ?_⟩
    rw [hlastM]
    intro hcon
    exact hrx (Option.some.inj hcon)

theorem addOpt_joinNl_trimT (Q : List Str) (hnl : nlFreeL Q) :
    addOptionSpacing (joinNl (trimT Q)) =
      joinNl (trimT (specOptionSpacing false false (trimT Q))) := by
  rcases trimT_lines_roundtrip Q hnl with h2 | ⟨hMne, hsplit⟩
  · rw [h2]
    rfl
  · rw [addOpt_eq (joinNl (trimT Q)) (by rw [hsplit]; exact hMne), hsplit]

theorem addTab_joinNl_trimT (Q : List Str) (hnl : nlFreeL Q) :
    addTableSpacing (joinNl (trimT Q)) =
      joinNl (trimT (specTableSpacing false (trimT Q))) := by
  rcases trimT_lines_roundtrip Q hnl with h2 | ⟨hMne, hsplit⟩
  · rw [h2]
    rfl
  · rw [addTab_eq (joinNl (trimT Q)) (by rw [hsplit]; exact hMne), hsplit]

theorem addOpt_fixed (Q : List Str) (hnl : nlFreeL Q)
    (hfix : specOptionSpacing false false (trimT Q) = trimT Q) :
    addOptionSpacing (joinNl (trimT Q)) = joinNl (trimT Q) := by
  rw [addOpt_joinNl_trimT Q hnl, hfix, trimT_idem]

theorem addTab_fixed (Q : List Str) (hnl : nlFreeL Q)
    (hfix : specTableSpacing false (trimT Q) = trimT Q) :
    addTableSpacing (joinNl (trimT Q)) = joinNl (trimT Q) := by
  rw [addTab_joinNl_trimT Q hnl, hfix, trimT_idem]

theorem addOpt_idem (t : Str) :
    addOptionSpacing (addOptionSpacing t) = addOptionSpacing t := by
  cases hsl : splitLines t with
  | nil =>
    have h1 : addOptionSpacing t = t := addOpt_nil_of t hsl
    rw [h1]
    exact h1
  | cons l ls =>
    have hne : splitLines t ≠ [] := by rw [hsl]; simp
    have hQnl : nlFreeL (specOptionSpacing false false (splitLines t)) := by
      intro y hy
      rcases specOpt_mem (splitLines t) false false y hy with h0 | h0
      · rw [h0]
        simp
      · exact splitLines_nlFree t y h0
    rw [addOpt_eq t hne]
    exact addOpt_fixed _ hQnl
      (specOpt_fixed_trimT false false _ (specOption_idem (splitLines t) false false))

theorem addTab_addOpt_addTab (t : Str) :
    addTableSpacing (addOptionSpacing (addTableSpacing t)) =
      addOptionSpacing (addTableSpacing t) := by
  cases hsl : splitLines t with
  | nil =>
    have h1 : addTableSpacing t = t := addTab_nil_of t hsl
    have h2 : addOptionSpacing t = t := addOpt_nil_of t hsl
    rw [h1, h2, h1]
  | cons l ls =>
    have hne : splitLines t ≠ [] := by rw [hsl]; simp
    have hPnl : nlFreeL (specTableSpacing false (splitLines t)) := by
      intro y hy
      rcases specTS_mem (splitLines t).length false (splitLines t) y (le_refl _) hy
        with h0 | h0
      · rw [h0]
        simp
      · exact splitLines_nlFree t y h0
    have hPchain : List.Chain' relLine (specTableSpacing false (splitLines t)) :=
      specTS_chain (splitLines t).length false (splitLines t) (le_refl _)
    rw [addTab_eq t hne]
    rw [addOpt_joinNl_trimT _ hPnl]
    have hQ1nl : nlFreeL (specOptionSpacing false false
        (trimT (specTableSpacing false (splitLines t)))) := by
      intro y hy
      rcases specOpt_mem _ false false y hy with h0 | h0
      · rw [h0]
        simp
      · exact nlFree_trimT _ hPnl y h0
    have hQ1chain : List.Chain' relLine (specOptionSpacing false false
        (trimT (specTableSpacing false (splitLines t)))) :=
      chain_specOpt _ false false (chain_trimT _ hPchain)
    refine addTab_fixed _ hQ1nl ?_
    refine specTS_fixed_of_chain
      (trimT (specOptionSpacing false false
        (trimT (specTableSpacing false (splitLines t))))).length false _
      (le_refl _) (fun hp => Bool.noConfusion hp) (chain_trimT _ hQ1chain)

theorem addOpt_addTab_idem (c : Str) :
    addOptionSpacing (addTableSpacing (addOptionSpacing (addTableSpacing c))) =
      addOptionSpacing (addTableSpacing c) := by
  rw [addTab_addOpt_addTab c]
  exact addOpt_idem (addTableSpacing c)

theorem processOneText_eq (o : Str) :
    processOneText o =
      if (cleanOutput o).isEmpty = true then []
      else addOptionSpacing (addTableSpacing (cleanOutput o)) := by
  unfold processOneText
  dsimp only

/-- Claim C1 (amended): the full normalization pipeline is idempotent on
every raw output whose normalized form is itself fixed by the extraction
stage `cleanOutput`; the spacing passes never need this hypothesis, as
`addTableSpacing` and `addOptionSpacing` are idempotent as a pair on every
string. (The unconditional statement is refuted by
`claimC1_counterexample`.) -/
theorem claimC1_conditional_idempotence (raw : Str)
    (h : cleanOutput (processOneText raw) = processOneText raw) :
    processOneText (processOneText raw) = processOneText raw := by
  by_cases hy : (processOneText raw).isEmpty = true
  · have hyy : processOneText raw = [] := by
      cases hp : processOneText raw with
      | nil => rfl
      | cons a t => rw [hp] at hy; exact Bool.noConfusion hy
    rw [hyy]
    rfl
  · by_cases hc : (cleanOutput raw).isEmpty = true
    · exfalso
      apply hy
      rw [processOneText_eq raw, if_pos hc]
      rfl
    · have h0 : processOneText raw =
          addOptionSpacing (addTableSpacing (cleanOutput raw)) := by
        rw [processOneText_eq raw, if_neg hc]
      rw [processOneText_eq (processOneText raw), h, if_neg hy, h0]
      exact addOpt_addTab_idem (cleanOutput raw)

/-- Claim C1 witness: the conditional idempotence theorem applies to the
concrete raw output `"hi"`. -/
theorem claimC1_conditional_idempotence_witness :
    cleanOutput (processOneText "hi".toList) = processOneText "hi".toList ∧
      processOneText (processOneText "hi".toList) = processOneText "hi".toList :=
  ⟨by decide, claimC1_conditional_idempotence "hi".toList (by decide)⟩
